import Mathlib

/-!
Verification of the darts simulator's throw-resolution engine and game state
machines, shallowly embedded from the JavaScript sources (`board.js`,
`game.js`, `counter-game.js`, and the continuous resolver module).

JavaScript numbers are modelled as `Int` where the source only ever holds
integers (scores, dart values, counters) and as `ℚ` where fractional values
flow (board radii, angles, random rolls).  Randomness (`Math.random()`) is
modelled by an explicit stream of rationals together with a cursor, so that
"consumes zero draws" is the statement that the cursor does not move.
DOM rendering, cookies and timers are outside the embedded core; the
wall-clock second count that the practice game stores in its history records
is passed in as an explicit parameter.
-/

namespace Darts

/-- A throw/selection descriptor as used throughout the sources:
`{ text, value }` (board selections) with `isDouble` added where the counter
game stores it. -/
structure Sel where
  text : String
  value : Int
deriving DecidableEq, Repr

/-- `sectors` from `board.js` line 7: the 20 sector numbers in clockwise
order starting from the top. -/
def sectors : List Int := [20, 1, 18, 4, 13, 6, 10, 15, 2, 17, 3, 19, 7, 16, 8, 11, 14, 9, 12, 5]

/-- `RING_BOUNDARIES.BULL_50` (board.js). -/
def RING_BOUNDARIES_BULL_50 : ℚ := 0.14
/-- `RING_BOUNDARIES.BULL_25` (board.js). -/
def RING_BOUNDARIES_BULL_25 : ℚ := 0.89
/-- `RING_BOUNDARIES.INNER_SINGLE` (board.js). -/
def RING_BOUNDARIES_INNER_SINGLE : ℚ := 33.89
/-- `RING_BOUNDARIES.TRIPLE` (board.js). -/
def RING_BOUNDARIES_TRIPLE : ℚ := 39.59
/-- `RING_BOUNDARIES.OUTER_SINGLE` (board.js). -/
def RING_BOUNDARIES_OUTER_SINGLE : ℚ := 90.79
/-- `RING_BOUNDARIES.DOUBLE` (board.js). -/
def RING_BOUNDARIES_DOUBLE : ℚ := 100

/-- `TARGET_RADII.BULL_50` (board.js). -/
def TARGET_RADII_BULL_50 : ℚ := 0.07
/-- `TARGET_RADII.BULL_25` (board.js). -/
def TARGET_RADII_BULL_25 : ℚ := 0.515
/-- `TARGET_RADII.SINGLE` (board.js). -/
def TARGET_RADII_SINGLE : ℚ := 65.19
/-- `TARGET_RADII.TRIPLE` (board.js). -/
def TARGET_RADII_TRIPLE : ℚ := 36.74
/-- `TARGET_RADII.DOUBLE` (board.js). -/
def TARGET_RADII_DOUBLE : ℚ := 95.40

/-- `SECTOR_ANGLE = 360 / 20` (board.js). -/
def SECTOR_ANGLE : ℚ := 360 / 20

/-- JavaScript `parseInt(text) || value`: parse the label as an integer,
falling back to `value` when the parse fails (NaN) or yields `0` (falsy). -/
def jsParseIntOr (s : String) (fallback : Int) : Int :=
  match s.toInt? with
  | some n => if n = 0 then fallback else n
  | none => fallback

/-- `getTargetCoordinates` (board.js lines 284-328): the aim point `(r, angle)`
for an intended selection; `none` models the source returning `null`
(unknown sector label, i.e. `sectors.indexOf(...) === -1`). -/
def getTargetCoordinates (sel : Sel) : Option (ℚ × ℚ) :=
  if sel.value = 50 then some (TARGET_RADII_BULL_50, 0)
  else if sel.value = 25 ∨ sel.text = "25" then some (TARGET_RADII_BULL_25, 0)
  else
    let isTriple := sel.text.startsWith "T"
    let isDbl := sel.text.startsWith "D"
    let sectorNumber? : Option Int :=
      if isTriple || isDbl then (sel.text.drop 1).toInt?
      else some (jsParseIntOr sel.text sel.value)
    match sectorNumber? with
    | none => none
    | some sectorNumber =>
      match sectors.indexOf? sectorNumber with
      | none => none
      | some sectorIndex =>
        let angle : ℚ := sectorIndex * SECTOR_ANGLE + SECTOR_ANGLE / 2
        let r : ℚ :=
          if isTriple then TARGET_RADII_TRIPLE
          else if isDbl then TARGET_RADII_DOUBLE
          else TARGET_RADII_SINGLE
        some (r, angle)

/-- The record returned by `getHitFromCoordinates` (board.js). -/
structure Hit where
  text : String
  value : Int
  isDouble : Bool
  sector : Int
deriving DecidableEq, Repr

/-- Truncation toward zero, the rounding used by the JavaScript `%` operator. -/
def ratTrunc (q : ℚ) : ℤ := if 0 ≤ q then ⌊q⌋ else ⌈q⌉

/-- JavaScript remainder `a % b` on numbers (truncated division). -/
def jsRem (a b : ℚ) : ℚ := a - b * (ratTrunc (a / b) : ℚ)

/-- `((angle % 360) + 360) % 360` from `getHitFromCoordinates`. -/
def normAngle (angle : ℚ) : ℚ := jsRem (jsRem angle 360 + 360) 360

/-- `Math.floor(angle / SECTOR_ANGLE) % sectors.length`, the sector index
computed by `getHitFromCoordinates` (board.js lines 345-346). -/
def hitSectorIndex (angle : ℚ) : ℕ :=
  ((⌊normAngle angle / SECTOR_ANGLE⌋ % (sectors.length : ℤ)).toNat)

/-- `getHitFromCoordinates` (board.js lines 336-390): classify a polar
coordinate into a scored hit.  The radius is clamped to `≥ 0`, the angle
normalized into `[0, 360)`. -/
def getHitFromCoordinates (r angle : ℚ) : Hit :=
  let r := max 0 r
  let sector := sectors.getD (hitSectorIndex angle) 0
  if r ≤ RING_BOUNDARIES_BULL_50 then ⟨"50", 50, true, sector⟩
  else if r ≤ RING_BOUNDARIES_BULL_25 then ⟨"25", 25, false, sector⟩
  else if r ≤ RING_BOUNDARIES_INNER_SINGLE then ⟨toString sector, sector, false, sector⟩
  else if r ≤ RING_BOUNDARIES_TRIPLE then ⟨"T" ++ toString sector, sector * 3, false, sector⟩
  else if r ≤ RING_BOUNDARIES_OUTER_SINGLE then ⟨toString sector, sector, false, sector⟩
  else if r ≤ RING_BOUNDARIES_DOUBLE then ⟨"D" ++ toString sector, sector * 2, true, sector⟩
  else ⟨"0", 0, false, sector⟩

/-- The 102 intended throws reachable from the input UI: singles, triples and
doubles of each of the 20 sectors, plus the two bulls (labels and values as
produced by `getActiveSelection`). -/
def allIntendedThrows : List Sel :=
  ((List.range 20).map fun k => (⟨toString ((k : Int) + 1), (k : Int) + 1⟩ : Sel)) ++
  ((List.range 20).map fun k => (⟨"T" ++ toString ((k : Int) + 1), ((k : Int) + 1) * 3⟩ : Sel)) ++
  ((List.range 20).map fun k => (⟨"D" ++ toString ((k : Int) + 1), ((k : Int) + 1) * 2⟩ : Sel)) ++
  [⟨"25", 25⟩, ⟨"50", 50⟩]

/-- The round trip `classify (targetAngleAndRadius t) = t` as a boolean check
on labels and values. -/
def roundTripOk (sel : Sel) : Bool :=
  match getTargetCoordinates sel with
  | some (r, angle) =>
    let h := getHitFromCoordinates r angle
    h.text == sel.text && h.value == sel.value
  | none => false

/-- Well-formedness of a classified hit: the sector is one of the 20 board
sectors and label/value/double-flag fit one of the six ring outcomes. -/
def wfHit (h : Hit) : Bool :=
  decide (h.sector ∈ sectors) &&
  ((h.text == "50" && h.value == 50 && h.isDouble) ||
   (h.text == "25" && h.value == 25 && !h.isDouble) ||
   (h.text == toString h.sector && h.value == h.sector && !h.isDouble) ||
   (h.text == "T" ++ toString h.sector && h.value == h.sector * 3 && !h.isDouble) ||
   (h.text == "D" ++ toString h.sector && h.value == h.sector * 2 && h.isDouble) ||
   (h.text == "0" && h.value == 0 && !h.isDouble))

theorem jsRem_360_of_nonneg (a : ℚ) (h : 0 ≤ a) :
    jsRem a 360 = 360 * Int.fract (a / 360) := by
  unfold jsRem ratTrunc
  rw [if_pos (by positivity)]
  rw [Int.fract]
  ring

theorem jsRem_360_nonneg_bounds (a : ℚ) (h : 0 ≤ a) :
    0 ≤ jsRem a 360 ∧ jsRem a 360 < 360 := by
  rw [jsRem_360_of_nonneg a h]
  constructor
  · have := Int.fract_nonneg (a / 360)
    linarith
  · have := Int.fract_lt_one (a / 360)
    linarith

theorem jsRem_360_neg_bounds (a : ℚ) (h : a < 0) :
    -360 < jsRem a 360 ∧ jsRem a 360 ≤ 0 := by
  unfold jsRem ratTrunc
  rw [if_neg (by simp only [not_le]; exact div_neg_of_neg_of_pos h (by norm_num))]
  have h1 : (a / 360 : ℚ) ≤ (⌈a / 360⌉ : ℚ) := Int.le_ceil _
  have h2 : ((⌈a / 360⌉ : ℤ) : ℚ) < a / 360 + 1 := Int.ceil_lt_add_one _
  constructor <;> nlinarith

theorem normAngle_bounds (a : ℚ) : 0 ≤ normAngle a ∧ normAngle a < 360 := by
  unfold normAngle
  have hx : 0 ≤ jsRem a 360 + 360 := by
    rcases le_or_lt 0 a with h | h
    · have := (jsRem_360_nonneg_bounds a h).1; linarith
    · have := (jsRem_360_neg_bounds a h).1; linarith
  exact jsRem_360_nonneg_bounds _ hx

theorem hitSectorIndex_lt (a : ℚ) : hitSectorIndex a < sectors.length := by
  unfold hitSectorIndex
  have h20 : (sectors.length : ℤ) = 20 := by decide
  rw [h20]
  have h1 : 0 ≤ ⌊normAngle a / SECTOR_ANGLE⌋ % 20 :=
    Int.emod_nonneg _ (by norm_num)
  have h2 : ⌊normAngle a / SECTOR_ANGLE⌋ % 20 < 20 :=
    Int.emod_lt_of_pos _ (by norm_num)
  show (⌊normAngle a / SECTOR_ANGLE⌋ % 20).toNat < sectors.length
  have : (⌊normAngle a / SECTOR_ANGLE⌋ % 20).toNat < 20 := by omega
  simpa [sectors] using this

theorem hitSector_mem (a : ℚ) : sectors[hitSectorIndex a]?.getD 0 ∈ sectors := by
  have h := hitSectorIndex_lt a
  rw [List.getElem?_eq_getElem h]
  exact List.getElem_mem h

/-- C10: `getHitFromCoordinates` is total over all rational inputs: the angle
normalizes into `[0, 360)`, the sector array is indexed in bounds, the radius
is clamped at zero, the returned throw is well-formed, and any radius above
100 is the off-board miss `{text := "0", value := 0, isDouble := false}`. -/
theorem C10_getHitFromCoordinates_total (r a : ℚ) :
    (0 ≤ normAngle a ∧ normAngle a < 360) ∧
    hitSectorIndex a < sectors.length ∧
    getHitFromCoordinates r a = getHitFromCoordinates (max 0 r) a ∧
    wfHit (getHitFromCoordinates r a) = true ∧
    (100 < r → (getHitFromCoordinates r a).text = "0" ∧
      (getHitFromCoordinates r a).value = 0 ∧
      (getHitFromCoordinates r a).isDouble = false) := by
  refine ⟨normAngle_bounds a, hitSectorIndex_lt a, ?_, ?_, ?_⟩
  · unfold getHitFromCoordinates
    rw [sup_left_idem]
  · have hmem := hitSector_mem a
    unfold getHitFromCoordinates wfHit
    dsimp only
    split <;> [skip; split] <;> [skip; skip; split] <;>
      [skip; skip; skip; split] <;> [skip; skip; skip; skip; split] <;>
      [skip; skip; skip; skip; skip; split] <;> simp [hmem]
  · intro hr
    have h0 : max 0 r = r := max_eq_right (by linarith)
    unfold getHitFromCoordinates
    rw [if_neg, if_neg, if_neg, if_neg, if_neg, if_neg]
    · exact ⟨rfl, rfl, rfl⟩
    · unfold RING_BOUNDARIES_DOUBLE; simp only [h0]; intro hc; linarith
    · unfold RING_BOUNDARIES_OUTER_SINGLE; simp only [h0]; intro hc
      rw [show (90.79 : ℚ) = 9079 / 100 by norm_num] at hc; linarith
    · unfold RING_BOUNDARIES_TRIPLE; simp only [h0]; intro hc
      rw [show (39.59 : ℚ) = 3959 / 100 by norm_num] at hc; linarith
    · unfold RING_BOUNDARIES_INNER_SINGLE; simp only [h0]; intro hc
      rw [show (33.89 : ℚ) = 3389 / 100 by norm_num] at hc; linarith
    · unfold RING_BOUNDARIES_BULL_25; simp only [h0]; intro hc
      rw [show (0.89 : ℚ) = 89 / 100 by norm_num] at hc; linarith
    · unfold RING_BOUNDARIES_BULL_50; simp only [h0]; intro hc
      rw [show (0.14 : ℚ) = 14 / 100 by norm_num] at hc; linarith

/-- C10 witness: the totality theorem evaluated at the concrete off-board
input `r = 150`, `angle = -17`. -/
theorem C10_witness :
    (getHitFromCoordinates 150 (-17)).text = "0" ∧
    (getHitFromCoordinates 150 (-17)).value = 0 ∧
    (getHitFromCoordinates 150 (-17)).isDouble = false :=
  (C10_getHitFromCoordinates_total 150 (-17)).2.2.2.2 (by norm_num)

/-- C2: for every intended throw across the five ring categories (single,
triple, double, outer bull 25, inner bull 50) and all 20 sectors, classifying
the exact target coordinates returned by `getTargetCoordinates` reproduces a
throw with the same text and value. -/
theorem C2_resolver_roundtrip : allIntendedThrows.all roundTripOk = true := by
  with_unfolding_all rfl

/-! ## Randomness model

`Math.random()` is modelled as a stream of rationals in `[0, 1)` together
with a cursor; every call reads the current position and advances the
cursor.  "Consumes zero draws" is the statement that the cursor is
unchanged. -/

/-- An injectable uniform-random source: a draw stream plus a cursor. -/
structure Rng where
  gen : Nat → ℚ
  idx : Nat

/-- One `Math.random()` call. -/
def Rng.next (r : Rng) : ℚ × Rng := (r.gen r.idx, ⟨r.gen, r.idx + 1⟩)

/-! ## Continuous (Gaussian) throw resolver

From `board.js` (`gaussianRandom`, `applyGaussianVariance`) and the
just-throw module (`applyMissChance`).  The Box–Muller combination
`sqrt(-2 ln u1) * cos(2 pi u2)` is transcendental and hence not a rational
function; the standard-normal draw is abstracted as an arbitrary function
`bm` of the two consumed uniform draws, which is the injectable
normal-sample generator the spec requires.  Everything proved below holds
for every such `bm`. -/

/-- `gaussianRandom` (board.js lines 399-407): returns the mean without
consuming any draws when `stdDev === 0`, otherwise consumes two uniform
draws and perturbs the mean. -/
def gaussianRandom (bm : ℚ → ℚ → ℚ) (mean stdDev : ℚ) (r : Rng) : ℚ × Rng :=
  if stdDev = 0 then (mean, r)
  else
    let (u1, r1) := r.next
    let (u2, r2) := r1.next
    (mean + bm u1 u2 * stdDev, r2)

/-- `applyGaussianVariance` (board.js lines 417-433). -/
def applyGaussianVariance (bm : ℚ → ℚ → ℚ) (r angle rStdDev angleStdDev : ℚ)
    (rng : Rng) : (ℚ × ℚ) × Rng :=
  let rStdDevActual := rStdDev * 100
  let angleStdDevActual := angleStdDev * 360
  let (newR, rng1) := gaussianRandom bm r rStdDevActual rng
  let (newAngle, rng2) := gaussianRandom bm angle angleStdDevActual rng1
  ((max 0 newR, newAngle), rng2)

/-- Continuous resolver settings `{ rStdDev, angleStdDev }`. -/
structure CSettings where
  rStdDev : ℚ
  angleStdDev : ℚ
deriving DecidableEq, Repr

/-- Result record of the continuous resolver's `applyMissChance`. -/
structure CMissResult where
  original : Sel
  actual : Sel
  wasMiss : Bool
  actualCoords : Option (ℚ × ℚ)
deriving DecidableEq, Repr

/-- `applyMissChance` of the continuous resolver (just-throw module,
lines 110-145): short-circuits when both standard deviations are zero,
otherwise perturbs the target coordinates and re-classifies. -/
def applyMissChanceC (bm : ℚ → ℚ → ℚ) (cfg : CSettings) (sel? : Option Sel)
    (rng : Rng) : Option CMissResult × Rng :=
  match sel? with
  | none => (none, rng)
  | some selection =>
    let original := selection
    if cfg.rStdDev = 0 ∧ cfg.angleStdDev = 0 then
      (some ⟨original, original, false, none⟩, rng)
    else
      match getTargetCoordinates selection with
      | none => (some ⟨original, original, false, none⟩, rng)
      | some (tr, tangle) =>
        let (coords, rng') :=
          applyGaussianVariance bm tr tangle cfg.rStdDev cfg.angleStdDev rng
        let hit := getHitFromCoordinates coords.1 coords.2
        let actual : Sel := ⟨hit.text, hit.value⟩
        (some ⟨original, actual, actual.text != original.text, some coords⟩, rng')

/-- C8: with `rStdDev = 0` and `angleStdDev = 0` the continuous resolver
returns the original throw unchanged with `wasMiss = false` for every
selection (all categories including both bulls), for every injected
normal-sample generator, consuming zero random draws. -/
theorem C8_continuous_zero_sigma (bm : ℚ → ℚ → ℚ) (sel : Sel) (g : Nat → ℚ) (i : Nat) :
    applyMissChanceC bm ⟨0, 0⟩ (some sel) ⟨g, i⟩ =
      (some ⟨sel, sel, false, none⟩, ⟨g, i⟩) := by
  with_unfolding_all rfl

/-! ## Discrete throw resolver (`game.js`, `applyMissChance`) -/

/-- Practice-game settings (`game.js` lines 3-11; the unused `round` counter
is omitted). -/
structure PSettings where
  noOuts : List Int
  max : Int
  min : Int
  mentalMathMode : Bool
  ringAccuracy : ℚ
  sectorAccuracy : ℚ
deriving DecidableEq, Repr

/-- The initial `settings` object of `game.js`. -/
def defaultSettings : PSettings :=
  { noOuts := [169, 168, 166, 165, 163, 162, 159]
    max := 170
    min := 2
    mentalMathMode := false
    ringAccuracy := 100
    sectorAccuracy := 100 }

/-- JavaScript `Array.prototype.indexOf`: position of `x`, `-1` if absent. -/
def jsIndexOf (l : List Int) (x : Int) : Int :=
  match l.indexOf? x with
  | some i => (i : Int)
  | none => -1

/-- Result record of the discrete resolver's `applyMissChance`. -/
structure MissResult where
  original : Sel
  actual : Sel
  wasMiss : Bool
  missType : Option String
deriving DecidableEq, Repr

/-- `applyMissChance` (game.js lines 72-199): the discrete ring/sector
accuracy model.  Each `Math.random()` of the source is one `Rng.next`.
JavaScript's NaN (from `parseInt` on a malformed label) is represented by
the placeholder `0`, which like NaN is not a sector number. -/
def applyMissChance (cfg : PSettings) (sel? : Option Sel) (rng : Rng) :
    Option MissResult × Rng :=
  match sel? with
  | none => (none, rng)
  | some selection =>
    let original := selection
    let isTriple := selection.text.startsWith "T"
    let isDbl := selection.text.startsWith "D" || selection.value == 50
    let isBull := selection.value == 25 || selection.value == 50
    let isBull50 := selection.value == 50
    let baseNumber : Int :=
      if isBull then selection.value
      else if isTriple || isDbl then ((selection.text.drop 1).toInt?).getD 0
      else selection.value
    if isBull then
      if isBull50 then
        -- inner bull: sector roll first (miss = random single), then ring
        -- roll (miss = outer bull 25)
        match (if cfg.sectorAccuracy < 100 then
                let (u, rng1) := rng.next
                if cfg.sectorAccuracy ≤ u * 100 then
                  let (u2, rng2) := rng1.next
                  let rs := sectors.getD (⌊u2 * (sectors.length : ℚ)⌋).toNat 0
                  (some (⟨toString rs, rs⟩ : Sel), rng2)
                else (none, rng1)
              else (none, rng)) with
        | (some actual, rng') => (some ⟨original, actual, true, some "sector"⟩, rng')
        | (none, rng') =>
          if cfg.ringAccuracy < 100 then
            let (u, rng2) := rng'.next
            if cfg.ringAccuracy ≤ u * 100 then
              (some ⟨original, ⟨"25", 25⟩, true, some "ring"⟩, rng2)
            else (some ⟨original, original, false, none⟩, rng2)
          else (some ⟨original, original, false, none⟩, rng')
      else
        -- outer bull: sector roll only; on miss 15% inner bull, else random
        -- single
        if cfg.sectorAccuracy < 100 then
          let (u, rng1) := rng.next
          if cfg.sectorAccuracy ≤ u * 100 then
            let (u2, rng2) := rng1.next
            if u2 < 0.15 then
              (some ⟨original, ⟨"50", 50⟩, true, some "sector"⟩, rng2)
            else
              let (u3, rng3) := rng2.next
              let rs := sectors.getD (⌊u3 * (sectors.length : ℚ)⌋).toNat 0
              (some ⟨original, ⟨toString rs, rs⟩, true, some "sector"⟩, rng3)
          else (some ⟨original, original, false, none⟩, rng1)
        else (some ⟨original, original, false, none⟩, rng)
    else
      -- regular sector: step 1 sector drift to a physical neighbor
      let step1 : Int × Bool × Option String × Rng :=
        if cfg.sectorAccuracy < 100 then
          let (u, rng1) := rng.next
          if cfg.sectorAccuracy ≤ u * 100 then
            let sectorIndex := jsIndexOf sectors baseNumber
            let (u2, rng2) := rng1.next
            let goLeft := u2 < (0.5 : ℚ)
            let neighborIndex : Int :=
              if goLeft then (sectorIndex - 1 + sectors.length) % sectors.length
              else (sectorIndex + 1) % sectors.length
            (sectors.getD neighborIndex.toNat 0, true, some "sector", rng2)
          else (baseNumber, false, none, rng1)
        else (baseNumber, false, none, rng)
      let base1 := step1.1
      let wasMiss1 := step1.2.1
      let missType1 := step1.2.2.1
      let rngA := step1.2.2.2
      -- step 2: ring roll for triples/doubles (miss = single of base1)
      if isTriple || isDbl then
        if cfg.ringAccuracy < 100 then
          let (u, rngB) := rngA.next
          if cfg.ringAccuracy ≤ u * 100 then
            (some ⟨original, ⟨toString base1, base1⟩, true,
              some (if missType1.isSome then "both" else "ring")⟩, rngB)
          else
            (some ⟨original,
              (if isTriple then ⟨"T" ++ toString base1, base1 * 3⟩
               else ⟨"D" ++ toString base1, base1 * 2⟩ : Sel),
              wasMiss1, missType1⟩, rngB)
        else
          (some ⟨original,
            (if isTriple then ⟨"T" ++ toString base1, base1 * 3⟩
             else ⟨"D" ++ toString base1, base1 * 2⟩ : Sel),
            wasMiss1, missType1⟩, rngA)
      else
        (some ⟨original, ⟨toString base1, base1⟩, wasMiss1, missType1⟩, rngA)

/-- C4: with `ringAccuracy = 100` and `sectorAccuracy = 100` the discrete
resolver returns the intended throw unchanged (`actual = t`,
`wasMiss = false`) for every intended throw of every category including
both bulls, for every other setting and every random stream, consuming
zero draws. -/
theorem C4_discrete_acc100 :
    ∀ sel ∈ allIntendedThrows, ∀ (no : List Int) (mx mn : Int) (mm : Bool)
      (g : Nat → ℚ) (i : Nat),
      applyMissChance ⟨no, mx, mn, mm, 100, 100⟩ (some sel) ⟨g, i⟩ =
        (some ⟨sel, sel, false, none⟩, ⟨g, i⟩) := by
  intro sel hsel no mx mn mm g i
  fin_cases hsel <;> with_unfolding_all rfl

/-- C4 witness: the accuracy-100 theorem evaluated at the concrete throw
`T20`. -/
theorem C4_witness :
    applyMissChance defaultSettings (some ⟨"T20", 60⟩) ⟨fun _ => 0, 0⟩ =
      (some ⟨⟨"T20", 60⟩, ⟨"T20", 60⟩, false, none⟩, ⟨fun _ => 0, 0⟩) :=
  C4_discrete_acc100 ⟨"T20", 60⟩ (by with_unfolding_all decide)
    [169, 168, 166, 165, 163, 162, 159] 170 2 false (fun _ => 0) 0

/-! ## Practice target game state machine (`game.js`) -/

/-- The practice game's `gameStatus` values (`null` is `Option.none`). -/
inductive GStatus where
  | win
  | lose
deriving DecidableEq, Repr

/-- One entry of the practice game's rolling history
(`{ result, time, throws, target }`). -/
structure PHist where
  result : String
  time : Int
  throws : Int
  target : Int
deriving DecidableEq, Repr

/-- The mutable round state of the practice game (`game.js` lines 57-66).
The timer handle and start timestamp live outside the embedded core; the
elapsed-seconds value they produce is a parameter of `handleThrow`. -/
structure PState where
  currentTarget : Int
  originalTarget : Int
  remainingDarts : Int
  gameStatus : Option GStatus
  gameHistory : List PHist
  throwsUsed : Int
  currentRoundThrows : List Sel
deriving DecidableEq, Repr

/-- The value `handleThrow` returns: `{ text, value, isDouble }`. -/
structure ThrowOut where
  text : String
  value : Int
  isDouble : Bool
deriving DecidableEq, Repr

/-- The `recordGame` helper inside `handleThrow` (game.js lines 420-431):
unshift a record onto the history and keep only the most recent 10. -/
def recordGame (timeSeconds : Int) (res : String) (st : PState) : PState :=
  let gh1 := ({ result := res, time := timeSeconds, throws := st.throwsUsed,
                target := st.originalTarget } : PHist) :: st.gameHistory
  let gh2 := if gh1.length > 10 then gh1.dropLast else gh1
  { st with gameHistory := gh2 }

/-- `handleThrow` (game.js lines 385-464): resolve the throw through the
discrete miss model, log it, subtract from the running target and settle
win/lose.  The source schedules `generateTarget` asynchronously via
`setTimeout` after a resolved round; that is not part of this synchronous
transition. -/
def handleThrow (cfg : PSettings) (timeSeconds : Int) (st : PState)
    (sel? : Option Sel) (rng : Rng) : PState × Option ThrowOut × Rng :=
  match sel? with
  | none => (st, none, rng)
  | some selection =>
    match applyMissChance cfg (some selection) rng with
    | (none, rng') => (st, none, rng')
    | (some mr, rng') =>
      let actual := mr.actual
      let isDouble := actual.text.startsWith "D" || actual.value == 50
      let st1 := { st with currentRoundThrows := st.currentRoundThrows ++ [actual] }
      let st2 := if st1.gameStatus ≠ none then { st1 with gameStatus := none } else st1
      let st3 := { st2 with
        throwsUsed := st2.throwsUsed + 1
        currentTarget := st2.currentTarget - actual.value
        remainingDarts := st2.remainingDarts - 1 }
      let st4 :=
        if st3.currentTarget = 0 then
          if isDouble then recordGame timeSeconds "W" { st3 with gameStatus := some .win }
          else recordGame timeSeconds "L" { st3 with gameStatus := some .lose }
        else if st3.currentTarget < 0 then
          recordGame timeSeconds "L" { st3 with gameStatus := some .lose }
        else if st3.remainingDarts = 0 then
          recordGame timeSeconds "L" { st3 with gameStatus := some .lose }
        else st3
      (st4, some ⟨actual.text, actual.value, isDouble⟩, rng')

/-- C3: in an active practice round, a throw whose resolved value brings the
running target to exactly 0 yields `lose` when the resolved throw is not a
double and `win` when it is (D-label or bull 50), and a throw that takes the
target below 0 yields `lose` regardless of ring. -/
theorem C3_practice_outcomes (cfg : PSettings) (t : Int) (st : PState) (sel : Sel)
    (g : Nat → ℚ) (i : Nat) (mr : MissResult) (rng' : Rng)
    (hres : applyMissChance cfg (some sel) ⟨g, i⟩ = (some mr, rng'))
    (hAct : st.gameStatus = none) :
    (st.currentTarget - mr.actual.value = 0 ∧
        (mr.actual.text.startsWith "D" || mr.actual.value == 50) = false →
      (handleThrow cfg t st (some sel) ⟨g, i⟩).1.gameStatus = some GStatus.lose) ∧
    (st.currentTarget - mr.actual.value = 0 ∧
        (mr.actual.text.startsWith "D" || mr.actual.value == 50) = true →
      (handleThrow cfg t st (some sel) ⟨g, i⟩).1.gameStatus = some GStatus.win) ∧
    (st.currentTarget - mr.actual.value < 0 →
      (handleThrow cfg t st (some sel) ⟨g, i⟩).1.gameStatus = some GStatus.lose) := by
  unfold handleThrow
  dsimp only
  rw [hres]
  refine ⟨?_, ?_, ?_⟩
  · rintro ⟨h0, hd⟩
    simp [hAct, hd, h0, recordGame]
  · rintro ⟨h0, hd⟩
    simp [hAct, hd, h0, recordGame]
  · intro hneg
    have hne : ¬ (st.currentTarget - mr.actual.value = 0) := by omega
    simp [hAct, hne, hneg, recordGame]

/-- Concrete active-round states used to instantiate the practice-game
theorems. -/
def pStateAt (target : Int) : PState :=
  { currentTarget := target, originalTarget := target, remainingDarts := 3,
    gameStatus := none, gameHistory := [], throwsUsed := 0,
    currentRoundThrows := [] }

/-- C3 witness: hitting D20 on a running target of 40 (exact zero, double)
wins; the theorem is applied at that concrete input. -/
theorem C3_witness :
    (handleThrow defaultSettings 0 (pStateAt 40) (some ⟨"D20", 40⟩)
        ⟨fun _ => 0, 0⟩).1.gameStatus = some GStatus.win :=
  (C3_practice_outcomes defaultSettings 0 (pStateAt 40) ⟨"D20", 40⟩
      (fun _ => 0) 0 ⟨⟨"D20", 40⟩, ⟨"D20", 40⟩, false, none⟩ ⟨fun _ => 0, 0⟩
      (by with_unfolding_all rfl) rfl).2.1
    ⟨by with_unfolding_all rfl, by with_unfolding_all rfl⟩

/-- A round that has already resolved (status `lose`) with no darts left. -/
def pStateResolved : PState :=
  { currentTarget := 0, originalTarget := 40, remainingDarts := 0,
    gameStatus := some GStatus.lose, gameHistory := [], throwsUsed := 3,
    currentRoundThrows := [] }

/-- C7 counterexample: calling `handleThrow` after the round has resolved
(status `lose`, 0 darts remaining) is not rejected and mutates the round
state: the throw is appended to the log, darts-remaining drops to `-1`, and
the running target is reduced — refuting the claim that such a call never
mutates the round state. -/
theorem C7_counterexample :
    (handleThrow defaultSettings 0 pStateResolved (some ⟨"5", 5⟩)
        ⟨fun _ => 0, 0⟩).1.remainingDarts = -1 ∧
    pStateResolved.remainingDarts = 0 ∧
    (handleThrow defaultSettings 0 pStateResolved (some ⟨"5", 5⟩)
        ⟨fun _ => 0, 0⟩).1.currentTarget = -5 ∧
    pStateResolved.currentTarget = 0 ∧
    (handleThrow defaultSettings 0 pStateResolved (some ⟨"5", 5⟩)
        ⟨fun _ => 0, 0⟩).1.currentRoundThrows = [⟨"5", 5⟩] ∧
    pStateResolved.currentRoundThrows = [] :=
  ⟨by with_unfolding_all rfl, rfl, by with_unfolding_all rfl, rfl,
   by with_unfolding_all rfl, rfl⟩

/-- C7 amended: only a null selection is a no-op.  For every state —
including resolved rounds and darts-remaining 0 — a non-null selection is
processed: any resolved status is cleared before settling, the resolved
throw is appended to the round log, darts-remaining is decremented (possibly
below zero) and the running target is reduced by the throw's value. -/
theorem C7_amended (cfg : PSettings) (t : Int) (st : PState) (r : Rng) :
    handleThrow cfg t st none r = (st, none, r) ∧
    (∀ sel mr rng', applyMissChance cfg (some sel) r = (some mr, rng') →
      (handleThrow cfg t st (some sel) r).1.currentRoundThrows
          = st.currentRoundThrows ++ [mr.actual] ∧
      (handleThrow cfg t st (some sel) r).1.remainingDarts
          = st.remainingDarts - 1 ∧
      (handleThrow cfg t st (some sel) r).1.currentTarget
          = st.currentTarget - mr.actual.value ∧
      (handleThrow cfg t st (some sel) r).1.throwsUsed = st.throwsUsed + 1) := by
  refine ⟨rfl, ?_⟩
  intro sel mr rng' hres
  unfold handleThrow
  dsimp only
  rw [hres]
  dsimp only
  split_ifs <;> simp [recordGame]

/-- C7 amended witness: the amended theorem applied at the concrete resolved
state with 0 darts remaining and the throw `5`. -/
theorem C7_amended_witness :
    (handleThrow defaultSettings 0 pStateResolved (some ⟨"5", 5⟩)
        ⟨fun _ => 0, 0⟩).1.currentRoundThrows = [⟨"5", 5⟩] :=
  ((C7_amended defaultSettings 0 pStateResolved ⟨fun _ => 0, 0⟩).2
      ⟨"5", 5⟩ ⟨⟨"5", 5⟩, ⟨"5", 5⟩, false, none⟩ ⟨fun _ => 0, 0⟩
      (by with_unfolding_all rfl)).1

/-! ## Target generation (`generateTarget`, `updateSettings`) -/

/-- One draw of `generateTarget`'s loop body:
`Math.floor(Math.random() * (settings.max - settings.min + 1)) + settings.min`
(game.js line 293). -/
def drawTarget (cfg : PSettings) (u : ℚ) : Int :=
  ⌊u * ((cfg.max : ℚ) - (cfg.min : ℚ) + 1)⌋ + cfg.min

/-- The `do { … } while (settings.noOuts.includes(target))` rejection loop of
`generateTarget` (game.js lines 290-306), indexed by fuel: `genLoop fuel n`
returns the first accepted draw among draws `n, …, n + fuel - 1`, `none`
while the loop is still spinning.  The source loop terminates on a given
draw stream exactly when `genLoop fuel` returns `some` for some fuel. -/
def genLoop (cfg : PSettings) (g : Nat → ℚ) : Nat → Nat → Option Int
  | 0, _ => none
  | fuel + 1, n =>
    let target := drawTarget cfg (g n)
    if target ∈ cfg.noOuts then genLoop cfg g fuel (n + 1) else some target

/-- `updateSettings` (game.js lines 37-50): clamp `min`/`max` into `[2, 170]`
and the accuracies into `[0, 100]`, then swap `min`/`max` when `min > max`. -/
def updateSettings (s : PSettings) (newMin? newMax? : Option Int)
    (newMM? : Option Bool) (newRing? newSector? : Option ℚ) : PSettings :=
  let s1 : PSettings := match newMin? with
    | some m => { s with min := Max.max 2 (Min.min 170 m) }
    | none => s
  let s2 : PSettings := match newMax? with
    | some m => { s1 with max := Max.max 2 (Min.min 170 m) }
    | none => s1
  let s3 : PSettings := match newMM? with
    | some b => { s2 with mentalMathMode := b }
    | none => s2
  let s4 : PSettings := match newRing? with
    | some q => { s3 with ringAccuracy := Max.max 0 (Min.min 100 q) }
    | none => s3
  let s5 : PSettings := match newSector? with
    | some q => { s4 with sectorAccuracy := Max.max 0 (Min.min 100 q) }
    | none => s4
  if s5.min > s5.max then { s5 with min := s5.max, max := s5.min } else s5

theorem drawTarget_bounds (cfg : PSettings) (u : ℚ) (hmm : cfg.min ≤ cfg.max)
    (h0 : 0 ≤ u) (h1 : u < 1) :
    cfg.min ≤ drawTarget cfg u ∧ drawTarget cfg u ≤ cfg.max := by
  unfold drawTarget
  have hc : (cfg.min : ℚ) ≤ (cfg.max : ℚ) := by exact_mod_cast hmm
  constructor
  · have : (0 : ℤ) ≤ ⌊u * ((cfg.max : ℚ) - (cfg.min : ℚ) + 1)⌋ :=
      Int.floor_nonneg.mpr (mul_nonneg h0 (by linarith))
    omega
  · have hlt : ⌊u * ((cfg.max : ℚ) - (cfg.min : ℚ) + 1)⌋ < cfg.max - cfg.min + 1 := by
      rw [Int.floor_lt]
      push_cast
      nlinarith
    omega

theorem genLoop_sound (cfg : PSettings) (g : Nat → ℚ)
    (hmm : cfg.min ≤ cfg.max) (hg : ∀ k, 0 ≤ g k ∧ g k < 1) :
    ∀ fuel n t, genLoop cfg g fuel n = some t →
      cfg.min ≤ t ∧ t ≤ cfg.max ∧ t ∉ cfg.noOuts := by
  intro fuel
  induction fuel with
  | zero => intro n t h; simp [genLoop] at h
  | succ fuel ih =>
    intro n t h
    unfold genLoop at h
    dsimp only at h
    by_cases hmem : drawTarget cfg (g n) ∈ cfg.noOuts
    · rw [if_pos hmem] at h
      exact ih _ _ h
    · rw [if_neg hmem] at h
      obtain rfl : drawTarget cfg (g n) = t := Option.some.inj h
      obtain ⟨b1, b2⟩ := drawTarget_bounds cfg (g n) hmm (hg n).1 (hg n).2
      exact ⟨b1, b2, hmem⟩

theorem genLoop_stuck (cfg : PSettings) (g : Nat → ℚ)
    (hmm : cfg.min ≤ cfg.max) (hg : ∀ k, 0 ≤ g k ∧ g k < 1)
    (hall : ∀ v : Int, cfg.min ≤ v → v ≤ cfg.max → v ∈ cfg.noOuts) :
    ∀ fuel n, genLoop cfg g fuel n = none := by
  intro fuel
  induction fuel with
  | zero => intro n; rfl
  | succ fuel ih =>
    intro n
    obtain ⟨b1, b2⟩ := drawTarget_bounds cfg (g n) hmm (hg n).1 (hg n).2
    unfold genLoop
    dsimp only
    rw [if_pos (hall _ b1 b2)]
    exact ih _

theorem genLoop_exists (cfg : PSettings) (hmm : cfg.min ≤ cfg.max)
    (v : Int) (hv1 : cfg.min ≤ v) (hv2 : v ≤ cfg.max) (hv3 : v ∉ cfg.noOuts) :
    ∃ g : Nat → ℚ, (∀ k, 0 ≤ g k ∧ g k < 1) ∧ genLoop cfg g 1 0 = some v := by
  have hc : (cfg.min : ℚ) ≤ (cfg.max : ℚ) := by exact_mod_cast hmm
  have hk1 : (1 : ℚ) ≤ (cfg.max : ℚ) - (cfg.min : ℚ) + 1 := by linarith
  refine ⟨fun _ => ((v : ℚ) - (cfg.min : ℚ)) / ((cfg.max : ℚ) - (cfg.min : ℚ) + 1), ?_, ?_⟩
  · intro j
    have hv1q : (cfg.min : ℚ) ≤ (v : ℚ) := by exact_mod_cast hv1
    have hv2q : (v : ℚ) ≤ (cfg.max : ℚ) := by exact_mod_cast hv2
    constructor
    · apply div_nonneg (by linarith) (by linarith)
    · rw [div_lt_one (by linarith)]
      linarith
  · have hd : drawTarget cfg (((v : ℚ) - (cfg.min : ℚ)) / ((cfg.max : ℚ) - (cfg.min : ℚ) + 1)) = v := by
      unfold drawTarget
      rw [div_mul_cancel₀ _ (by intro h0; rw [h0] at hk1; norm_num at hk1)]
      rw [show ((v : ℚ) - (cfg.min : ℚ)) = ((v - cfg.min : ℤ) : ℚ) by push_cast; ring]
      rw [Int.floor_intCast]
      omega
    unfold genLoop
    dsimp only
    rw [hd, if_neg hv3]

/-- `updateSettings` applied with requested `min = max = 169`: both are kept
(169 lies inside the `[2, 170]` clamp) even though 169 is in the
no-checkout exclusion set. -/
def cfg169 : PSettings := updateSettings defaultSettings (some 169) (some 169) none none none

/-- C9: the target-generation loop, run on a stream of valid uniform draws:
(1) whenever it terminates its result lies in `[min, max]` and outside the
no-checkout set; (2) if `[min, max]` contains a value outside the set, a
draw stream exists on which it terminates; (3) if every value of
`[min, max]` is in the set it never terminates on any stream; and (4) the
clamping in `updateSettings` admits `min = max = 169`, for which the loop
never terminates. -/
theorem C9_generateTarget_termination :
    (∀ (cfg : PSettings) (g : Nat → ℚ) (fuel n : Nat) (t : Int),
        cfg.min ≤ cfg.max → (∀ k, 0 ≤ g k ∧ g k < 1) →
        genLoop cfg g fuel n = some t →
        cfg.min ≤ t ∧ t ≤ cfg.max ∧ t ∉ cfg.noOuts) ∧
    (∀ cfg : PSettings, cfg.min ≤ cfg.max →
        (∃ v : Int, cfg.min ≤ v ∧ v ≤ cfg.max ∧ v ∉ cfg.noOuts) →
        ∃ (g : Nat → ℚ) (t : Int), (∀ k, 0 ≤ g k ∧ g k < 1) ∧
          genLoop cfg g 1 0 = some t) ∧
    (∀ (cfg : PSettings) (g : Nat → ℚ),
        cfg.min ≤ cfg.max → (∀ k, 0 ≤ g k ∧ g k < 1) →
        (∀ v : Int, cfg.min ≤ v → v ≤ cfg.max → v ∈ cfg.noOuts) →
        ∀ fuel n, genLoop cfg g fuel n = none) ∧
    (cfg169.min = 169 ∧ cfg169.max = 169 ∧
      ∀ g : Nat → ℚ, (∀ k, 0 ≤ g k ∧ g k < 1) →
        ∀ fuel n, genLoop cfg169 g fuel n = none) := by
  refine ⟨?_, ?_, ?_, ?_, ?_, ?_⟩
  · intro cfg g fuel n t hmm hg h
    exact genLoop_sound cfg g hmm hg fuel n t h
  · intro cfg hmm ⟨v, hv1, hv2, hv3⟩
    obtain ⟨g, hg, hsome⟩ := genLoop_exists cfg hmm v hv1 hv2 hv3
    exact ⟨g, v, hg, hsome⟩
  · intro cfg g hmm hg hall fuel n
    exact genLoop_stuck cfg g hmm hg hall fuel n
  · with_unfolding_all rfl
  · with_unfolding_all rfl
  · intro g hg fuel n
    have hmin : cfg169.min = 169 := by with_unfolding_all rfl
    have hmax : cfg169.max = 169 := by with_unfolding_all rfl
    refine genLoop_stuck cfg169 g (by rw [hmin, hmax]) hg ?_ fuel n
    intro v h1 h2
    rw [hmin] at h1
    rw [hmax] at h2
    obtain rfl : v = 169 := le_antisymm h2 h1
    have hno : cfg169.noOuts = [169, 168, 166, 165, 163, 162, 159] := by
      with_unfolding_all rfl
    rw [hno]
    decide

/-- C9 witness: the soundness part applied on the all-zeros stream with the
default settings (the first draw is accepted and equals 2), and the
non-termination part applied at `min = max = 169` with fuel 5. -/
theorem C9_witness :
    (defaultSettings.min ≤ (2 : Int) ∧ (2 : Int) ≤ defaultSettings.max ∧
      (2 : Int) ∉ defaultSettings.noOuts) ∧
    genLoop cfg169 (fun _ => 0) 5 0 = none :=
  ⟨C9_generateTarget_termination.1 defaultSettings (fun _ => 0) 1 0 2
      (by norm_num [defaultSettings])
      (fun k => ⟨le_refl 0, by norm_num⟩)
      (by with_unfolding_all rfl),
   C9_generateTarget_termination.2.2.2.2.2 (fun _ => 0)
      (fun k => ⟨le_refl 0, by norm_num⟩) 5 0⟩

/-! ## Counter game (`counter-game.js`): multiplayer 301/501 state machine -/

/-- A throw as stored by the counter game: `{ text, value, isDouble }`. -/
structure Thr where
  text : String
  value : Int
  isDouble : Bool
deriving DecidableEq, Repr

/-- One history round: `{ round, throws, bust, scoreAfter }`. -/
structure Round where
  round : Nat
  throws : List Thr
  bust : Bool
  scoreAfter : Int
deriving DecidableEq, Repr

/-- A player: `{ name, score, history }`. -/
structure Player where
  name : String
  score : Int
  history : List Round
deriving DecidableEq, Repr

/-- The current turn: `{ throws, scoreAtStart }`. -/
structure Turn where
  throws : List Thr
  scoreAtStart : Int
deriving DecidableEq, Repr

/-- The counter game state (`counter-game.js` lines 443-455).  In the source
`winner` holds a reference to the winning player object; here it holds the
winning player's value at the moment of the win.  `mentalMathMode` is a
display toggle the state machine never reads. -/
structure CGState where
  players : List Player
  currentPlayerIndex : Nat
  startingScore : Int
  doubleOut : Bool
  currentTurn : Turn
  gameStarted : Bool
  winner : Option Player
  mentalMathMode : Bool
deriving DecidableEq, Repr

/-- `throws.reduce((sum, t) => sum + t.value, 0)`. -/
def throwsTotal (ts : List Thr) : Int := ts.foldl (fun s t => s + t.value) 0

/-- `getCurrentPlayer` (counter-game.js lines 770-772):
`players[currentPlayerIndex] || null`. -/
def getCurrentPlayer (st : CGState) : Option Player :=
  st.players.get? st.currentPlayerIndex

/-- `getActualCurrentScore` (counter-game.js lines 913-918). -/
def getActualCurrentScore (st : CGState) : Int :=
  match getCurrentPlayer st with
  | none => 0
  | some _ => st.currentTurn.scoreAtStart - throwsTotal st.currentTurn.throws

/-- The result object of `addThrow` and its helpers.  The source returns
objects with a varying set of fields; absent boolean fields are `false`
here and the message is dropped. -/
structure AddResult where
  success : Bool
  bust : Bool
  win : Bool
  turnComplete : Bool
deriving DecidableEq, Repr

/-- `advanceToNextPlayer` (counter-game.js lines 1032-1041).  The source
indexes `players[newIdx]` unconditionally; with an empty player list that
is a fault, modelled by the (unreachable in a started game) `0` default. -/
def advanceToNextPlayer (st : CGState) : CGState :=
  let newIdx := (st.currentPlayerIndex + 1) % st.players.length
  let nextScore := match st.players.get? newIdx with
    | some p => p.score
    | none => 0
  { st with currentPlayerIndex := newIdx,
            currentTurn := { throws := [], scoreAtStart := nextScore } }

/-- `handleBust` (counter-game.js lines 963-981): log the busted round with
`scoreAfter = scoreAtStart`, leave the player's score unchanged, advance. -/
def handleBust (st : CGState) : CGState × AddResult :=
  match getCurrentPlayer st with
  | none => (st, ⟨false, false, false, false⟩)
  | some player =>
    let newRound : Round :=
      { round := player.history.length + 1
        throws := st.currentTurn.throws
        bust := true
        scoreAfter := st.currentTurn.scoreAtStart }
    let player' := { player with history := player.history ++ [newRound] }
    let st1 := { st with players := st.players.set st.currentPlayerIndex player' }
    (advanceToNextPlayer st1, ⟨true, true, false, false⟩)

/-- `handleWin` (counter-game.js lines 984-1006): log the final round with
`scoreAfter = 0`, zero the score, set the winner; no advance. -/
def handleWin (st : CGState) : CGState × AddResult :=
  match getCurrentPlayer st with
  | none => (st, ⟨false, false, false, false⟩)
  | some player =>
    let newRound : Round :=
      { round := player.history.length + 1
        throws := st.currentTurn.throws
        bust := false
        scoreAfter := 0 }
    let player' := { player with history := player.history ++ [newRound], score := 0 }
    let st1 := { st with players := st.players.set st.currentPlayerIndex player',
                         winner := some player' }
    (st1, ⟨true, false, true, false⟩)

/-- `completeTurn` (counter-game.js lines 1008-1030): close the three-throw turn,
record the round, update the score, advance. -/
def completeTurn (st : CGState) : CGState × AddResult :=
  match getCurrentPlayer st with
  | none => (st, ⟨false, false, false, false⟩)
  | some player =>
    let newScore := st.currentTurn.scoreAtStart - throwsTotal st.currentTurn.throws
    let newRound : Round :=
      { round := player.history.length + 1
        throws := st.currentTurn.throws
        bust := false
        scoreAfter := newScore }
    let player' := { player with history := player.history ++ [newRound], score := newScore }
    let st1 := { st with players := st.players.set st.currentPlayerIndex player' }
    (advanceToNextPlayer st1, ⟨true, false, false, true⟩)

/-- `addThrow` (counter-game.js lines 922-961). -/
def addThrow (st : CGState) (t : Thr) : CGState × AddResult :=
  if !st.gameStarted || st.winner.isSome then
    (st, ⟨false, false, false, false⟩)
  else
    match getCurrentPlayer st with
    | none => (st, ⟨false, false, false, false⟩)
    | some _ =>
      let currentScore := getActualCurrentScore st
      let newScore := currentScore - t.value
      if st.doubleOut ∧ (newScore < 0 ∨ newScore = 1 ∨ (newScore = 0 ∧ ¬t.isDouble)) then
        let st1 := { st with currentTurn :=
          { st.currentTurn with throws := st.currentTurn.throws ++ [t] } }
        handleBust st1
      else
        let st1 := { st with currentTurn :=
          { st.currentTurn with throws := st.currentTurn.throws ++ [t] } }
        if newScore = 0 then handleWin st1
        else if st1.currentTurn.throws.length ≥ 3 then completeTurn st1
        else (st1, ⟨true, false, false, false⟩)

/-- The result object of `undoThrow`. -/
structure UndoResult where
  success : Bool
  removed : Option Thr
  playerChanged : Bool
deriving DecidableEq, Repr

/-- The score restoration of `undoThrow` (counter-game.js lines 1077-1081):
the `scoreAfter` of the last remaining round, or the starting score when no
rounds remain. -/
def lastScore (s : Int) (h : List Round) : Int :=
  match h.getLast? with
  | some r => r.scoreAfter
  | none => s

/-- `undoThrow` (counter-game.js lines 1052-1097): pop the last throw of the
current turn, or reach back into the previous player's last recorded round.
With an empty player list and an empty turn the source faults on
`previousPlayer.history`; that is modelled as a failure result. -/
def undoThrow (st : CGState) : CGState × UndoResult :=
  if st.currentTurn.throws.length > 0 then
    let removed := st.currentTurn.throws.getLast?
    ({ st with currentTurn :=
        { st.currentTurn with throws := st.currentTurn.throws.dropLast } },
     ⟨true, removed, false⟩)
  else
    let len := st.players.length
    let previousPlayerIndex := (st.currentPlayerIndex + len - 1) % len
    match st.players.get? previousPlayerIndex with
    | none => (st, ⟨false, none, false⟩)
    | some previousPlayer =>
      if previousPlayer.history.length = 0 then
        (st, ⟨false, none, false⟩)
      else
        let lastRound := (previousPlayer.history.getLast?).getD
          ⟨0, [], false, 0⟩
        let hist' := previousPlayer.history.dropLast
        let newScore := lastScore st.startingScore hist'
        let previousPlayer' := { previousPlayer with history := hist', score := newScore }
        let throwsToRestore := lastRound.throws.dropLast
        let removed := lastRound.throws.getLast?
        ({ st with
            players := st.players.set previousPlayerIndex previousPlayer',
            currentPlayerIndex := previousPlayerIndex,
            currentTurn := { throws := throwsToRestore, scoreAtStart := newScore } },
         ⟨true, removed, true⟩)

/-- `startGame` (counter-game.js lines 860-879): requires at least one
player; resets scores and histories and begins the first player's turn. -/
def startGame (st : CGState) : Option CGState :=
  if st.players.length = 0 then none
  else some { st with
    players := st.players.map fun p =>
      { p with score := st.startingScore, history := [] },
    currentPlayerIndex := 0,
    gameStarted := true,
    winner := none,
    currentTurn := { throws := [], scoreAtStart := st.startingScore } }

/-- Counter game states reachable from `startGame` by the game-play
operations `addThrow` and `undoThrow`.  The pre-start configuration
(players, starting score, double-out flag) is arbitrary, which covers the
setup operations (`addPlayer`, `setGameMode`, `setDoubleOut`, …). -/
inductive Reachable : CGState → Prop where
  | start (st0 st : CGState) : startGame st0 = some st → Reachable st
  | add (st : CGState) (t : Thr) : Reachable st → Reachable (addThrow st t).1
  | undo (st : CGState) : Reachable st → Reachable (undoThrow st).1

/-! ### Score-chain and turn-progress invariants -/

/-- The per-round score chain: a non-bust round subtracts its throw total
from the previous score, a bust round carries the previous score. -/
def chainOkB (s : Int) : List Round → Bool
  | [] => true
  | r :: rest =>
    (r.scoreAfter == (if r.bust then s else s - throwsTotal r.throws)) &&
    chainOkB r.scoreAfter rest

/-- The score after a whole history chain: the last round's `scoreAfter`,
or the start value when the history is empty. -/
def chainFinal (s : Int) : List Round → Int
  | [] => s
  | r :: rest => chainFinal r.scoreAfter rest

/-- Sum of the throw totals of the non-busted rounds. -/
def nonBustTotal (h : List Round) : Int :=
  ((h.filter fun r => !r.bust).map fun r => throwsTotal r.throws).sum

theorem throwsTotal_append (ts : List Thr) (t : Thr) :
    throwsTotal (ts ++ [t]) = throwsTotal ts + t.value := by
  unfold throwsTotal
  rw [List.foldl_append]
  rfl

theorem chainFinal_append (s : Int) (h : List Round) (r : Round) :
    chainFinal s (h ++ [r]) = r.scoreAfter := by
  induction h generalizing s with
  | nil => rfl
  | cons r0 rest ih =>
    simp only [List.cons_append, chainFinal]
    exact ih _

theorem chainFinal_eq_getLast (s : Int) (h : List Round) :
    chainFinal s h = (match h.getLast? with
      | some r => r.scoreAfter
      | none => s) := by
  induction h generalizing s with
  | nil => rfl
  | cons r0 rest ih =>
    cases rest with
    | nil => rfl
    | cons r1 rest' =>
      simp only [chainFinal, List.getLast?_cons_cons]
      exact ih r0.scoreAfter

theorem chainOkB_cons (s : Int) (r : Round) (rest : List Round) :
    chainOkB s (r :: rest) = true ↔
      (r.scoreAfter = (if r.bust then s else s - throwsTotal r.throws) ∧
       chainOkB r.scoreAfter rest = true) := by
  simp [chainOkB]

theorem chainOkB_append (s : Int) (h : List Round) (r : Round) :
    chainOkB s (h ++ [r]) = true ↔
      (chainOkB s h = true ∧
       r.scoreAfter = (if r.bust then chainFinal s h
                       else chainFinal s h - throwsTotal r.throws)) := by
  induction h generalizing s with
  | nil =>
    simp only [List.nil_append, chainOkB_cons, chainFinal]
    simp [chainOkB]
  | cons r0 rest ih =>
    simp only [List.cons_append, chainOkB_cons, ih, chainFinal]
    tauto

theorem chainFinal_sub (s : Int) (h : List Round) (hc : chainOkB s h = true) :
    chainFinal s h = s - nonBustTotal h := by
  induction h generalizing s with
  | nil => simp [chainFinal, nonBustTotal]
  | cons r rest ih =>
    rw [chainOkB_cons] at hc
    obtain ⟨h1, h2⟩ := hc
    simp only [chainFinal]
    rw [ih _ h2]
    by_cases hb : r.bust
    · rw [if_pos hb] at h1
      have hn : nonBustTotal (r :: rest) = nonBustTotal rest := by
        simp [nonBustTotal, hb]
      rw [hn, h1]
    · rw [if_neg hb] at h1
      have hn : nonBustTotal (r :: rest) = throwsTotal r.throws + nonBustTotal rest := by
        simp [nonBustTotal, hb]
      rw [hn, h1]
      ring

/-- Rounds are numbered `1, 2, …` in order. -/
def numbered (h : List Round) : Prop :=
  ∀ i (hi : i < h.length), (h.get ⟨i, hi⟩).round = i + 1

theorem numbered_nil : numbered [] := by
  intro i hi
  simp at hi

theorem numbered_append (h : List Round) (r : Round) (hn : numbered h)
    (hr : r.round = h.length + 1) : numbered (h ++ [r]) := by
  intro i hi
  simp only [List.length_append, List.length_singleton] at hi
  rcases Nat.lt_or_ge i h.length with hlt | hge
  · show (h ++ [r])[i].round = i + 1
    rw [List.getElem_append_left hlt]
    exact hn i hlt
  · have hie : i = h.length := by omega
    subst hie
    show (h ++ [r])[h.length].round = h.length + 1
    rw [List.getElem_concat_length _ _ _ rfl]
    exact hr

theorem numbered_dropLast (h : List Round) (hn : numbered h) : numbered h.dropLast := by
  intro i hi
  show h.dropLast[i].round = i + 1
  rw [List.getElem_dropLast]
  have hi' : i < h.length := by
    rw [List.length_dropLast] at hi
    omega
  exact hn i hi'

theorem numbered_last (h' : List Round) (r : Round) (hn : numbered (h' ++ [r])) :
    r.round = h'.length + 1 := by
  have hh := hn h'.length (by simp)
  show r.round = h'.length + 1
  have : (h' ++ [r])[h'.length] = r := List.getElem_concat_length _ _ _ rfl _
  rw [show ((h' ++ [r]).get ⟨h'.length, by simp⟩) = (h' ++ [r])[h'.length] from rfl, this] at hh
  exact hh

/-- The condition under which `addThrow` ends the current turn when the
given throw is added after `prev`: the double-out bust condition, an exact
zero (win), or the third throw of the turn. -/
def trigStep (dOut : Bool) (s : Int) (prev : List Thr) (t : Thr) : Prop :=
  (dOut = true ∧ (s - throwsTotal prev - t.value < 0 ∨
      s - throwsTotal prev - t.value = 1 ∨
      (s - throwsTotal prev - t.value = 0 ∧ ¬t.isDouble = true))) ∨
  s - throwsTotal prev - t.value = 0 ∨ prev.length + 1 ≥ 3

/-- Every proper stage of the throw list is non-terminal: this is exactly
the condition for a list of throws to sit in an in-progress turn. -/
def progressive (dOut : Bool) (s : Int) (ts : List Thr) : Prop :=
  ∀ i (hi : i < ts.length), ¬ trigStep dOut s (ts.take i) (ts.get ⟨i, hi⟩)

theorem progressive_nil (dOut : Bool) (s : Int) : progressive dOut s [] := by
  intro i hi
  simp at hi

theorem progressive_append (dOut : Bool) (s : Int) (ts : List Thr) (t : Thr) :
    progressive dOut s (ts ++ [t]) ↔
      progressive dOut s ts ∧ ¬ trigStep dOut s ts t := by
  constructor
  · intro hp
    constructor
    · intro i hi
      have hib : i < (ts ++ [t]).length := by
        simp only [List.length_append, List.length_singleton]; omega
      have hh := hp i hib
      show ¬ trigStep dOut s (ts.take i) ts[i]
      have e1 : (ts ++ [t]).take i = ts.take i :=
        List.take_append_of_le_length (le_of_lt hi)
      have e2 : (ts ++ [t]).get ⟨i, hib⟩ = ts[i] := by
        rw [List.get_eq_getElem]
        exact List.getElem_append_left hi
      rw [e1, e2] at hh
      exact hh
    · have hlb : ts.length < (ts ++ [t]).length := by simp
      have hh := hp ts.length hlb
      have e1 : (ts ++ [t]).take ts.length = ts := by
        rw [List.take_append_of_le_length (le_refl _), List.take_length]
      have e2 : (ts ++ [t]).get ⟨ts.length, hlb⟩ = t := by
        rw [List.get_eq_getElem]
        exact List.getElem_concat_length _ _ _ rfl _
      rw [e1, e2] at hh
      exact hh
  · rintro ⟨h1, h2⟩ i hi
    simp only [List.length_append, List.length_singleton] at hi
    show ¬ trigStep dOut s ((ts ++ [t]).take i)
      ((ts ++ [t]).get ⟨i, by simp only [List.length_append, List.length_singleton]; omega⟩)
    rcases Nat.lt_or_ge i ts.length with hlt | hge
    · rw [List.get_eq_getElem, List.take_append_of_le_length (le_of_lt hlt),
          List.getElem_append_left hlt]
      exact h1 i hlt
    · have hie : i = ts.length := by omega
      subst hie
      rw [List.get_eq_getElem, List.take_append_of_le_length (le_refl _), List.take_length,
          List.getElem_concat_length _ _ _ rfl]
      exact h2

theorem progressive_dropLast (dOut : Bool) (s : Int) (ts : List Thr)
    (hp : progressive dOut s ts) : progressive dOut s ts.dropLast := by
  intro i hi
  have hi' : i < ts.length := by
    rw [List.length_dropLast] at hi
    omega
  show ¬ trigStep dOut s (ts.dropLast.take i) ts.dropLast[i]
  rw [List.getElem_dropLast]
  have ht : ts.dropLast.take i = ts.take i := by
    rw [List.dropLast_eq_take, List.take_take]
    congr 1
    rw [List.length_dropLast] at hi
    omega
  rw [ht]
  exact hp i hi'

theorem progressive_length_le (dOut : Bool) (s : Int) (ts : List Thr)
    (hp : progressive dOut s ts) : ts.length ≤ 2 := by
  by_contra hlen
  push_neg at hlen
  apply hp 2 (by omega)
  right; right
  have : (ts.take 2).length = 2 := by
    rw [List.length_take]
    omega
  rw [this]

/-- What the game records about one finished round, relative to the score
`s` the player had before it: the throws split into an in-progress prefix
plus a final throw that either busted (with `doubleOut` on) or completed a
three-throw turn without reaching zero. -/
def roundOk (dOut : Bool) (s : Int) (r : Round) : Prop :=
  ∃ ts t, r.throws = ts ++ [t] ∧ progressive dOut s ts ∧
    (if r.bust then
      (dOut = true ∧ (s - throwsTotal ts - t.value < 0 ∨
          s - throwsTotal ts - t.value = 1 ∨
          (s - throwsTotal ts - t.value = 0 ∧ ¬t.isDouble = true)))
    else
      (ts.length + 1 = 3 ∧
       ¬(dOut = true ∧ (s - throwsTotal ts - t.value < 0 ∨
            s - throwsTotal ts - t.value = 1 ∨
            (s - throwsTotal ts - t.value = 0 ∧ ¬t.isDouble = true))) ∧
       s - throwsTotal ts - t.value ≠ 0))

/-- `roundOk` for every round of a history, each taken at the chain score
before it. -/
def histStrong (dOut : Bool) : Int → List Round → Prop
  | _, [] => True
  | s, r :: rest => roundOk dOut s r ∧ histStrong dOut r.scoreAfter rest

theorem histStrong_append (dOut : Bool) (s : Int) (h : List Round) (r : Round) :
    histStrong dOut s (h ++ [r]) ↔
      histStrong dOut s h ∧ roundOk dOut (chainFinal s h) r := by
  induction h generalizing s with
  | nil =>
    simp only [List.nil_append, histStrong, chainFinal]
    tauto
  | cons r0 rest ih =>
    simp only [List.cons_append, List.append_eq, histStrong, chainFinal, ih]
    tauto

theorem histStrong_dropLast (dOut : Bool) (s : Int) (h : List Round)
    (hs : histStrong dOut s h) : histStrong dOut s h.dropLast := by
  rcases h.eq_nil_or_concat with rfl | ⟨h', r, rfl⟩
  · exact trivial
  · rw [List.concat_eq_append] at hs ⊢
    rw [histStrong_append] at hs
    rw [List.dropLast_concat]
    exact hs.1

/-! ### The counter-game invariant -/

/-- The inductive invariant of reachable counter-game states: the game is
started with a valid current player; every player's history is a correct
score chain ending at their current score, numbered `1, 2, …`; and while no
winner is set, the current turn starts at the current player's score, its
throws are an in-progress (non-terminal) sequence, and every recorded
round decomposes as `roundOk` describes. -/
structure Inv (st : CGState) : Prop where
  started : st.gameStarted = true
  ne : st.players.length ≠ 0
  idxLt : st.currentPlayerIndex < st.players.length
  chain : ∀ p ∈ st.players,
    chainOkB st.startingScore p.history = true ∧
    p.score = chainFinal st.startingScore p.history ∧
    numbered p.history
  turnScore : st.winner = none →
    ∀ p, st.players.get? st.currentPlayerIndex = some p →
      st.currentTurn.scoreAtStart = p.score
  prog : st.winner = none →
    progressive st.doubleOut st.currentTurn.scoreAtStart st.currentTurn.throws
  strong : st.winner = none →
    ∀ p ∈ st.players, histStrong st.doubleOut st.startingScore p.history

theorem get?_set_self (l : List Player) (i : Nat) (p : Player) (h : i < l.length) :
    (l.set i p).get? i = some p := by
  rw [List.get?_eq_getElem?]
  exact List.getElem?_set_self h

theorem get?_set_ne (l : List Player) (i j : Nat) (p : Player) (h : i ≠ j) :
    (l.set i p).get? j = l.get? j := by
  rw [List.get?_eq_getElem?, List.get?_eq_getElem?]
  exact List.getElem?_set_ne h

theorem mem_of_get? (l : List Player) (i : Nat) (p : Player)
    (h : l.get? i = some p) : p ∈ l := by
  rw [List.get?_eq_getElem?, List.getElem?_eq_some] at h
  obtain ⟨hlt, rfl⟩ := h
  exact List.getElem_mem hlt

theorem get?_of_lt (l : List Player) (i : Nat) (h : i < l.length) :
    ∃ p, l.get? i = some p := by
  rw [List.get?_eq_getElem?]
  exact ⟨l[i], List.getElem?_eq_some.mpr ⟨h, rfl⟩⟩

theorem set_restore (l : List Player) (i : Nat) (p p' : Player)
    (h : l.get? i = some p) : (l.set i p').set i p = l := by
  rw [List.set_set]
  rw [List.get?_eq_getElem?, List.getElem?_eq_some] at h
  obtain ⟨hlt, rfl⟩ := h
  apply List.ext_getElem
  · simp
  · intro n h1 h2
    rcases eq_or_ne i n with rfl | hne
    · simp
    · rw [List.getElem_set_ne hne]

theorem mod_cycle (len i : Nat) (h : i < len) :
    ((i + len - 1) % len + 1) % len = i := by
  rcases Nat.eq_zero_or_pos i with rfl | hpos
  · have hl : 1 ≤ len := h
    have e1 : 0 + len - 1 = len - 1 := by omega
    have e2 : (len - 1) % len = len - 1 := Nat.mod_eq_of_lt (by omega)
    rw [e1, e2, Nat.sub_add_cancel hl, Nat.mod_self]
  · have h1 : i + len - 1 = (i - 1) + len := by omega
    have e2 : (i - 1) % len = i - 1 := Nat.mod_eq_of_lt (by omega)
    rw [h1, Nat.add_mod_right, e2, Nat.sub_add_cancel hpos, Nat.mod_eq_of_lt h]

theorem inv_advance (st : CGState)
    (hs : st.gameStarted = true) (hne : st.players.length ≠ 0)
    (hch : ∀ p ∈ st.players, chainOkB st.startingScore p.history = true ∧
      p.score = chainFinal st.startingScore p.history ∧ numbered p.history)
    (_hw : st.winner = none)
    (hstrong : ∀ p ∈ st.players, histStrong st.doubleOut st.startingScore p.history) :
    Inv (advanceToNextPlayer st) := by
  have hpos : 0 < st.players.length := Nat.pos_of_ne_zero hne
  have hidx : (st.currentPlayerIndex + 1) % st.players.length < st.players.length :=
    Nat.mod_lt _ hpos
  unfold advanceToNextPlayer
  refine { started := hs, ne := hne, idxLt := hidx, chain := hch,
           turnScore := ?_, prog := ?_, strong := fun _ => hstrong }
  · intro _ p hp
    dsimp only at hp ⊢
    rw [hp]
  · intro _
    exact progressive_nil _ _

theorem inv_start (st0 st : CGState) (h : startGame st0 = some st) : Inv st := by
  unfold startGame at h
  split at h
  · exact absurd h (by simp)
  · rename_i hne
    obtain rfl := Option.some.inj h
    refine { started := rfl, ne := by simpa using hne,
             idxLt := by simpa using Nat.pos_of_ne_zero hne,
             chain := ?_, turnScore := ?_, prog := ?_, strong := ?_ }
    · intro p hp
      simp only [List.mem_map] at hp
      obtain ⟨q, _, rfl⟩ := hp
      exact ⟨rfl, rfl, numbered_nil⟩
    · intro _ p hp
      simp only [List.get?_eq_getElem?, List.getElem?_map] at hp
      cases hq : st0.players[0]? with
      | none => rw [hq] at hp; simp at hp
      | some q =>
        rw [hq] at hp
        simp only [Option.map_some'] at hp
        obtain rfl := Option.some.inj hp
        rfl
    · intro _
      exact progressive_nil _ _
    · intro _ p hp
      simp only [List.mem_map] at hp
      obtain ⟨q, _, rfl⟩ := hp
      exact trivial

theorem getCurrentPlayer_setTurn (st : CGState) (tn : Turn) :
    getCurrentPlayer { st with currentTurn := tn } = getCurrentPlayer st := rfl

theorem inv_addThrow (st : CGState) (t : Thr) (h : Inv st) : Inv (addThrow st t).1 := by
  unfold addThrow
  by_cases hg : (!st.gameStarted || st.winner.isSome) = true
  · rw [if_pos hg]
    exact h
  · rw [if_neg hg]
    have hw : st.winner = none := by
      cases hwc : st.winner
      · rfl
      · exfalso
        apply hg
        rw [hwc]
        simp
    obtain ⟨p, hp⟩ := get?_of_lt st.players st.currentPlayerIndex h.idxLt
    have hmem : p ∈ st.players := mem_of_get? _ _ _ hp
    obtain ⟨hchain, hscore, hnum⟩ := h.chain p hmem
    have hts : st.currentTurn.scoreAtStart = p.score := h.turnScore hw p hp
    have hcf : st.currentTurn.scoreAtStart = chainFinal st.startingScore p.history :=
      hts.trans hscore
    have hgc : getCurrentPlayer st = some p := hp
    rw [hgc]
    dsimp only
    have hact : getActualCurrentScore st =
        st.currentTurn.scoreAtStart - throwsTotal st.currentTurn.throws := by
      unfold getActualCurrentScore
      rw [hgc]
    rw [hact]
    by_cases hbc : st.doubleOut = true ∧
        (st.currentTurn.scoreAtStart - throwsTotal st.currentTurn.throws - t.value < 0 ∨
         st.currentTurn.scoreAtStart - throwsTotal st.currentTurn.throws - t.value = 1 ∨
         (st.currentTurn.scoreAtStart - throwsTotal st.currentTurn.throws - t.value = 0 ∧
          ¬t.isDouble = true))
    · rw [if_pos hbc]
      unfold handleBust
      rw [getCurrentPlayer_setTurn, hgc]
      dsimp only
      apply inv_advance
      · exact h.started
      · simpa using h.ne
      · intro q hq
        dsimp only at hq
        rcases List.mem_or_eq_of_mem_set hq with hmem' | rfl
        · exact h.chain q hmem'
        · refine ⟨?_, ?_, ?_⟩
          · dsimp only
            rw [chainOkB_append]
            refine ⟨hchain, ?_⟩
            rw [if_pos rfl]
            exact hcf
          · dsimp only
            rw [chainFinal_append]
            exact hts.symm
          · exact numbered_append _ _ hnum rfl
      · exact hw
      · intro q hq
        dsimp only at hq
        rcases List.mem_or_eq_of_mem_set hq with hmem' | rfl
        · exact h.strong hw q hmem'
        · dsimp only
          rw [histStrong_append]
          refine ⟨h.strong hw p hmem, ?_⟩
          rw [← hcf]
          refine ⟨st.currentTurn.throws, t, rfl, h.prog hw, ?_⟩
          rw [if_pos rfl]
          exact hbc
    · rw [if_neg hbc]
      by_cases hns : st.currentTurn.scoreAtStart - throwsTotal st.currentTurn.throws - t.value = 0
      · rw [if_pos hns]
        unfold handleWin
        rw [getCurrentPlayer_setTurn, hgc]
        dsimp only
        refine { started := h.started, ne := by simpa using h.ne,
                 idxLt := by simpa using h.idxLt,
                 chain := ?_, turnScore := ?_, prog := ?_, strong := ?_ }
        · intro q hq
          dsimp only at hq
          rcases List.mem_or_eq_of_mem_set hq with hmem' | rfl
          · exact h.chain q hmem'
          · refine ⟨?_, ?_, ?_⟩
            · dsimp only
              rw [chainOkB_append]
              refine ⟨hchain, ?_⟩
              rw [if_neg (by simp)]
              rw [throwsTotal_append, ← hcf]
              show (0 : Int) = st.currentTurn.scoreAtStart -
                (throwsTotal st.currentTurn.throws + t.value)
              omega
            · dsimp only
              rw [chainFinal_append]
            · exact numbered_append _ _ hnum rfl
        · intro hwn
          exact absurd hwn (by simp)
        · intro hwn
          exact absurd hwn (by simp)
        · intro hwn
          exact absurd hwn (by simp)
      · rw [if_neg hns]
        by_cases hlen : (st.currentTurn.throws ++ [t]).length ≥ 3
        · rw [if_pos hlen]
          unfold completeTurn
          rw [getCurrentPlayer_setTurn, hgc]
          dsimp only
          apply inv_advance
          · exact h.started
          · simpa using h.ne
          · intro q hq
            dsimp only at hq
            rcases List.mem_or_eq_of_mem_set hq with hmem' | rfl
            · exact h.chain q hmem'
            · refine ⟨?_, ?_, ?_⟩
              · dsimp only
                rw [chainOkB_append]
                refine ⟨hchain, ?_⟩
                rw [if_neg (by simp)]
                rw [← hcf]
              · dsimp only
                rw [chainFinal_append]
              · exact numbered_append _ _ hnum rfl
          · exact hw
          · intro q hq
            dsimp only at hq
            rcases List.mem_or_eq_of_mem_set hq with hmem' | rfl
            · exact h.strong hw q hmem'
            · dsimp only
              rw [histStrong_append]
              refine ⟨h.strong hw p hmem, ?_⟩
              rw [← hcf]
              refine ⟨st.currentTurn.throws, t, rfl, h.prog hw, ?_⟩
              rw [if_neg (by simp)]
              refine ⟨?_, hbc, hns⟩
              have hle := progressive_length_le _ _ _ (h.prog hw)
              simp only [List.length_append, List.length_singleton] at hlen
              omega
        · rw [if_neg hlen]
          refine { started := h.started, ne := h.ne, idxLt := h.idxLt,
                   chain := h.chain, turnScore := h.turnScore,
                   prog := ?_, strong := h.strong }
          intro hwn
          show progressive st.doubleOut st.currentTurn.scoreAtStart
            (st.currentTurn.throws ++ [t])
          rw [progressive_append]
          refine ⟨h.prog hw, ?_⟩
          intro htr
          rcases htr with hA | hB | hC
          · exact hbc hA
          · exact hns hB
          · apply hlen
            simpa using hC

theorem lastScore_eq_chainFinal (s : Int) (h : List Round) :
    lastScore s h = chainFinal s h := by
  unfold lastScore
  rw [chainFinal_eq_getLast]

theorem inv_undo (st : CGState) (h : Inv st) : Inv (undoThrow st).1 := by
  unfold undoThrow
  by_cases hturn : st.currentTurn.throws.length > 0
  · rw [if_pos hturn]
    dsimp only
    refine { started := h.started, ne := h.ne, idxLt := h.idxLt, chain := h.chain,
             turnScore := h.turnScore, prog := ?_, strong := h.strong }
    intro hwn
    exact progressive_dropLast _ _ _ (h.prog hwn)
  · rw [if_neg hturn]
    dsimp only
    have hpos : 0 < st.players.length := Nat.pos_of_ne_zero h.ne
    have hprevlt : (st.currentPlayerIndex + st.players.length - 1) % st.players.length
        < st.players.length := Nat.mod_lt _ hpos
    obtain ⟨pp, hpp⟩ := get?_of_lt st.players _ hprevlt
    rw [hpp]
    dsimp only
    by_cases hhist : pp.history.length = 0
    · rw [if_pos hhist]
      exact h
    · rw [if_neg hhist]
      dsimp only
      obtain ⟨h', r, hdec⟩ : ∃ h' r, pp.history = h' ++ [r] := by
        rcases pp.history.eq_nil_or_concat with hnil | ⟨h', r, hcc⟩
        · rw [hnil] at hhist
          simp at hhist
        · exact ⟨h', r, by rw [hcc, List.concat_eq_append]⟩
      have hmem : pp ∈ st.players := mem_of_get? _ _ _ hpp
      obtain ⟨hchain, hscore, hnum⟩ := h.chain pp hmem
      have hlast : pp.history.getLast? = some r := by
        rw [hdec]
        exact List.getLast?_concat _
      have hdrop : pp.history.dropLast = h' := by
        rw [hdec]
        exact List.dropLast_concat
      have hnum' : numbered h' := by
        rw [← hdrop]
        exact numbered_dropLast _ hnum
      rw [hdec, chainOkB_append] at hchain
      have hls : lastScore st.startingScore h' = chainFinal st.startingScore h' :=
        lastScore_eq_chainFinal _ _
      rw [hlast, hdrop, hls]
      dsimp only [Option.getD_some]
      refine { started := h.started, ne := by simpa using h.ne,
               idxLt := by simpa using hprevlt,
               chain := ?_, turnScore := ?_, prog := ?_, strong := ?_ }
      · intro q hq
        dsimp only at hq
        rcases List.mem_or_eq_of_mem_set hq with hmem' | rfl
        · exact h.chain q hmem'
        · exact ⟨hchain.1, rfl, hnum'⟩
      · intro _ q hq
        dsimp only at hq
        rw [get?_set_self _ _ _ (by simpa using hprevlt)] at hq
        obtain rfl := Option.some.inj hq
        rfl
      · intro hwn
        have hstr := h.strong hwn pp hmem
        rw [hdec, histStrong_append] at hstr
        obtain ⟨ts, tl, htr, hprog, _⟩ := hstr.2
        show progressive st.doubleOut (chainFinal st.startingScore h') r.throws.dropLast
        rw [htr, List.dropLast_concat]
        exact hprog
      · intro hwn q hq
        dsimp only at hq
        rcases List.mem_or_eq_of_mem_set hq with hmem' | rfl
        · exact h.strong hwn q hmem'
        · have hstr := h.strong hwn pp hmem
          rw [hdec, histStrong_append] at hstr
          exact hstr.1

theorem inv_reachable (st : CGState) (h : Reachable st) : Inv st := by
  induction h with
  | start st0 st hs => exact inv_start st0 st hs
  | add st t _ ih => exact inv_addThrow st t ih
  | undo st _ ih => exact inv_undo st ih

/-- C5: in every reachable counter-game state, every player's history is a
correct score chain — each non-bust round's `scoreAfter` is the previous
round's `scoreAfter` minus the round's throw total, bust rounds carry the
previous score, starting from `startingScore` — and equivalently the
player's score equals `startingScore` minus the sum of all non-busted round
totals. -/
theorem C5_score_invariant (st : CGState) (h : Reachable st) :
    ∀ p ∈ st.players,
      chainOkB st.startingScore p.history = true ∧
      p.score = st.startingScore - nonBustTotal p.history := by
  intro p hp
  have hi := inv_reachable st h
  obtain ⟨hc, hs, _⟩ := hi.chain p hp
  exact ⟨hc, by rw [hs, chainFinal_sub _ _ hc]⟩

/-- A pre-start configuration with one player, used to instantiate the
counter-game theorems. -/
def cgSetup : CGState :=
  { players := [⟨"Alice", 0, []⟩], currentPlayerIndex := 0, startingScore := 301,
    doubleOut := true, currentTurn := ⟨[], 0⟩, gameStarted := false,
    winner := none, mentalMathMode := false }

/-- The state reached by `startGame` from `cgSetup`. -/
def cgStart : CGState :=
  { players := [⟨"Alice", 301, []⟩], currentPlayerIndex := 0, startingScore := 301,
    doubleOut := true, currentTurn := ⟨[], 301⟩, gameStarted := true,
    winner := none, mentalMathMode := false }

/-- C5 witness: the invariant applied to the freshly started one-player
game. -/
theorem C5_witness :
    chainOkB 301 ([] : List Round) = true ∧
    (301 : Int) = 301 - nonBustTotal [] :=
  C5_score_invariant cgStart
    (Reachable.start cgSetup cgStart (by with_unfolding_all rfl))
    ⟨"Alice", 301, []⟩ (List.mem_singleton.mpr rfl)

/-- C1: with double-out enabled, the game started, no winner and a current
player `p`, `addThrow` busts exactly when the candidate score
`scoreAtStart - sum(turn throws) - t.value` is `< 0`, `= 1`, or `= 0` with a
non-double throw; and on a bust the throw is recorded in the logged round,
a `bust := true` record with `scoreAfter = scoreAtStart` is appended to the
player's history, the player's score is unchanged, the turn log is cleared
and play advances to `(index + 1) mod players.length` whose `scoreAtStart`
is that player's current score. -/
theorem C1_bust_rule (st : CGState) (t : Thr) (p : Player)
    (hs : st.gameStarted = true) (hw : st.winner = none)
    (hd : st.doubleOut = true)
    (hp : st.players.get? st.currentPlayerIndex = some p) :
    ((addThrow st t).2.bust = true ↔
      (st.currentTurn.scoreAtStart - throwsTotal st.currentTurn.throws - t.value < 0 ∨
       st.currentTurn.scoreAtStart - throwsTotal st.currentTurn.throws - t.value = 1 ∨
       (st.currentTurn.scoreAtStart - throwsTotal st.currentTurn.throws - t.value = 0 ∧
        t.isDouble = false))) ∧
    ((st.currentTurn.scoreAtStart - throwsTotal st.currentTurn.throws - t.value < 0 ∨
      st.currentTurn.scoreAtStart - throwsTotal st.currentTurn.throws - t.value = 1 ∨
      (st.currentTurn.scoreAtStart - throwsTotal st.currentTurn.throws - t.value = 0 ∧
       t.isDouble = false)) →
      ((addThrow st t).1.players.get? st.currentPlayerIndex =
        some { p with history := p.history ++
          [{ round := p.history.length + 1,
             throws := st.currentTurn.throws ++ [t],
             bust := true,
             scoreAfter := st.currentTurn.scoreAtStart }] } ∧
       (addThrow st t).1.currentPlayerIndex =
         (st.currentPlayerIndex + 1) % st.players.length ∧
       (addThrow st t).1.currentTurn.throws = [] ∧
       ∀ q, (addThrow st t).1.players.get? (addThrow st t).1.currentPlayerIndex = some q →
         (addThrow st t).1.currentTurn.scoreAtStart = q.score)) := by
  have hlt : st.currentPlayerIndex < st.players.length := by
    rw [List.get?_eq_getElem?, List.getElem?_eq_some] at hp
    exact hp.1
  unfold addThrow
  have hg : ¬ ((!st.gameStarted || st.winner.isSome) = true) := by
    rw [hs, hw]
    simp
  rw [if_neg hg]
  have hgc : getCurrentPlayer st = some p := hp
  rw [hgc]
  dsimp only
  have hact : getActualCurrentScore st =
      st.currentTurn.scoreAtStart - throwsTotal st.currentTurn.throws := by
    unfold getActualCurrentScore
    rw [hgc]
  rw [hact]
  by_cases hbc : (st.currentTurn.scoreAtStart - throwsTotal st.currentTurn.throws - t.value < 0 ∨
      st.currentTurn.scoreAtStart - throwsTotal st.currentTurn.throws - t.value = 1 ∨
      (st.currentTurn.scoreAtStart - throwsTotal st.currentTurn.throws - t.value = 0 ∧
       ¬t.isDouble = true))
  · rw [if_pos ⟨hd, hbc⟩]
    unfold handleBust
    rw [getCurrentPlayer_setTurn, hgc]
    dsimp only
    constructor
    · exact ⟨fun _ => by simpa using hbc, fun _ => rfl⟩
    · intro _
      refine ⟨?_, ?_, rfl, ?_⟩
      · show ((st.players.set st.currentPlayerIndex _).get? st.currentPlayerIndex) = _
        rw [get?_set_self _ _ _ hlt]
      · show (st.currentPlayerIndex + 1) % (st.players.set _ _).length =
          (st.currentPlayerIndex + 1) % st.players.length
        rw [List.length_set]
      · intro q hq
        unfold advanceToNextPlayer at hq ⊢
        dsimp only at hq ⊢
        rw [hq]
  · have hnc : ¬(st.doubleOut = true ∧ _) := fun hc => hbc hc.2
    rw [if_neg hnc]
    by_cases hns : st.currentTurn.scoreAtStart - throwsTotal st.currentTurn.throws - t.value = 0
    · rw [if_pos hns]
      unfold handleWin
      rw [getCurrentPlayer_setTurn, hgc]
      dsimp only
      refine ⟨⟨fun habs => absurd habs (by simp), fun hc => absurd (by simpa using hc) hbc⟩,
              fun hc => absurd (by simpa using hc) hbc⟩
    · rw [if_neg hns]
      by_cases hlen : (st.currentTurn.throws ++ [t]).length ≥ 3
      · rw [if_pos hlen]
        unfold completeTurn
        rw [getCurrentPlayer_setTurn, hgc]
        dsimp only
        refine ⟨⟨fun habs => absurd habs (by simp), fun hc => absurd (by simpa using hc) hbc⟩,
                fun hc => absurd (by simpa using hc) hbc⟩
      · rw [if_neg hlen]
        refine ⟨⟨fun habs => absurd habs (by simp), fun hc => absurd (by simpa using hc) hbc⟩,
                fun hc => absurd (by simpa using hc) hbc⟩

/-- A one-player game standing at score 2 with double-out on. -/
def cgTwo : CGState :=
  { players := [⟨"Alice", 2, []⟩], currentPlayerIndex := 0, startingScore := 301,
    doubleOut := true, currentTurn := ⟨[], 2⟩, gameStarted := true,
    winner := none, mentalMathMode := false }

/-- C1 witness: throwing single 1 at score 2 leaves candidate score 1,
which busts; the bust rule theorem is applied at that concrete input. -/
theorem C1_witness :
    (addThrow cgTwo ⟨"1", 1, false⟩).2.bust = true ∧
    (addThrow cgTwo ⟨"1", 1, false⟩).1.currentTurn.throws = [] :=
  ⟨((C1_bust_rule cgTwo ⟨"1", 1, false⟩ ⟨"Alice", 2, []⟩ rfl rfl rfl rfl).1).mpr
      (Or.inr (Or.inl (by with_unfolding_all rfl))),
   (((C1_bust_rule cgTwo ⟨"1", 1, false⟩ ⟨"Alice", 2, []⟩ rfl rfl rfl rfl).2)
      (Or.inr (Or.inl (by with_unfolding_all rfl)))).2.2.1⟩

/-- A one-player no-double-out configuration used to build the C6
counterexample game. -/
def cgW0 : CGState :=
  { players := [⟨"Alice", 0, []⟩], currentPlayerIndex := 0, startingScore := 301,
    doubleOut := false, currentTurn := ⟨[], 0⟩, gameStarted := false,
    winner := none, mentalMathMode := false }

/-- The reachable state just after a win: start a 301 game without
double-out, throw five T20s (one completed turn, then two more throws) and
finish with a single 1 for exactly zero.  `handleWin` sets `winner` but
leaves the winning turn's throws in `currentTurn`. -/
def undoRedoCex : CGState :=
  (addThrow (addThrow (addThrow (addThrow (addThrow (addThrow
    ((startGame cgW0).getD cgW0) ⟨"T20", 60, false⟩).1 ⟨"T20", 60, false⟩).1
    ⟨"T20", 60, false⟩).1 ⟨"T20", 60, false⟩).1 ⟨"T20", 60, false⟩).1
    ⟨"1", 1, false⟩).1

/-- C6 counterexample: in the reachable post-win state, `undoThrow` succeeds
(popping the winning throw from the still-populated turn log), but
re-applying the identical throw is rejected — `winner` was never cleared —
so the game does not return to the pre-undo state. -/
theorem C6_counterexample :
    Reachable undoRedoCex ∧
    (undoThrow undoRedoCex).2.success = true ∧
    (undoThrow undoRedoCex).2.removed = some ⟨"1", 1, false⟩ ∧
    (addThrow (undoThrow undoRedoCex).1 ⟨"1", 1, false⟩).1 ≠ undoRedoCex := by
  refine ⟨?_, by with_unfolding_all rfl, by with_unfolding_all rfl, ?_⟩
  · exact Reachable.add _ _ (Reachable.add _ _ (Reachable.add _ _ (Reachable.add _ _
      (Reachable.add _ _ (Reachable.add _ _
        (Reachable.start cgW0 _ (by with_unfolding_all rfl)))))))
  · have e1 : (addThrow (undoThrow undoRedoCex).1
        ⟨"1", 1, false⟩).1.currentTurn.throws.length = 2 := by
      with_unfolding_all rfl
    have e2 : undoRedoCex.currentTurn.throws.length = 3 := by
      with_unfolding_all rfl
    intro he
    rw [he, e2] at e1
    exact absurd e1 (by norm_num)

/-- Re-applying the removed throw after a cross-turn undo reproduces the
original state: the undone round is re-recorded identically and play
re-advances to the original current player. -/
theorem addThrow_cross_redo
    (st : CGState) (pidx : Nat) (pp : Player) (h' : List Round) (r : Round)
    (ts : List Thr) (t : Thr) (pc : Player)
    (hstart : st.gameStarted = true) (hw : st.winner = none)
    (hlen : pidx < st.players.length)
    (hpp : st.players.get? pidx = some pp)
    (hdec : pp.history = h' ++ [r])
    (htr : r.throws = ts ++ [t])
    (hround : r.round = h'.length + 1)
    (hsa : r.scoreAfter = (if r.bust then chainFinal st.startingScore h'
        else chainFinal st.startingScore h' - throwsTotal r.throws))
    (hppscore : pp.score = r.scoreAfter)
    (hcond : if r.bust then
        (st.doubleOut = true ∧
          (chainFinal st.startingScore h' - throwsTotal ts - t.value < 0 ∨
           chainFinal st.startingScore h' - throwsTotal ts - t.value = 1 ∨
           (chainFinal st.startingScore h' - throwsTotal ts - t.value = 0 ∧
            ¬t.isDouble = true)))
      else
        (ts.length + 1 = 3 ∧
         ¬(st.doubleOut = true ∧
            (chainFinal st.startingScore h' - throwsTotal ts - t.value < 0 ∨
             chainFinal st.startingScore h' - throwsTotal ts - t.value = 1 ∨
             (chainFinal st.startingScore h' - throwsTotal ts - t.value = 0 ∧
              ¬t.isDouble = true))) ∧
         chainFinal st.startingScore h' - throwsTotal ts - t.value ≠ 0))
    (hidxeq : (pidx + 1) % st.players.length = st.currentPlayerIndex)
    (hpc : st.players.get? st.currentPlayerIndex = some pc)
    (hturn : st.currentTurn = ⟨[], pc.score⟩) :
    (addThrow { st with
        players := st.players.set pidx
          { pp with history := h', score := chainFinal st.startingScore h' },
        currentPlayerIndex := pidx,
        currentTurn := ⟨ts, chainFinal st.startingScore h'⟩ } t).1 = st := by
  unfold addThrow getActualCurrentScore getCurrentPlayer
  dsimp only
  rw [if_neg (show ¬((!st.gameStarted || st.winner.isSome) = true) from by
    rw [hstart, hw]; simp)]
  rw [get?_set_self _ _ _ hlen]
  dsimp only
  by_cases hb : r.bust = true
  · rw [if_pos hb] at hcond hsa
    rw [if_pos hcond]
    unfold handleBust getCurrentPlayer
    dsimp only
    rw [get?_set_self _ _ _ hlen]
    dsimp only
    have hr2 : (⟨h'.length + 1, ts ++ [t], true,
        chainFinal st.startingScore h'⟩ : Round) = r := by
      cases r with
      | mk rr rt rb rs =>
        dsimp only at htr hround hsa hb ⊢
        rw [hround, htr, hb, hsa]
    rw [hr2]
    have hpp2 : (⟨pp.name, chainFinal st.startingScore h', h' ++ [r]⟩ : Player) = pp := by
      cases pp with
      | mk nm sc hi =>
        dsimp only at hdec hppscore ⊢
        rw [← hdec, hppscore, hsa]
    rw [hpp2, set_restore _ _ _ _ hpp]
    unfold advanceToNextPlayer
    dsimp only
    rw [hidxeq, hpc]
    rw [← hturn]
  · have hbf : r.bust = false := by
      revert hb
      cases r.bust <;> simp
    rw [if_neg hb] at hcond hsa
    obtain ⟨hlen3, hnb, hnz⟩ := hcond
    rw [if_neg hnb, if_neg hnz,
        if_pos (show (ts ++ [t]).length ≥ 3 from by
          simp only [List.length_append, List.length_singleton]
          omega)]
    unfold completeTurn getCurrentPlayer
    dsimp only
    rw [get?_set_self _ _ _ hlen]
    dsimp only
    have hsa' : r.scoreAfter = chainFinal st.startingScore h' - throwsTotal (ts ++ [t]) := by
      rw [hsa, htr]
    have hr2 : (⟨h'.length + 1, ts ++ [t], false,
        chainFinal st.startingScore h' - throwsTotal (ts ++ [t])⟩ : Round) = r := by
      cases r with
      | mk rr rt rb rs =>
        dsimp only at htr hround hsa' hbf ⊢
        rw [hround, htr, hbf, hsa']
    rw [hr2]
    have hpp2 : (⟨pp.name, chainFinal st.startingScore h' - throwsTotal (ts ++ [t]),
        h' ++ [r]⟩ : Player) = pp := by
      cases pp with
      | mk nm sc hi =>
        dsimp only at hdec hppscore hsa' ⊢
        rw [← hdec, hppscore, hsa']
    rw [hpp2, set_restore _ _ _ _ hpp]
    unfold advanceToNextPlayer
    dsimp only
    rw [hidxeq, hpc]
    rw [← hturn]

/-- C6 amended: in every reachable counter-game state with no winner set in
which `undoThrow` succeeds, re-applying the removed throw via `addThrow`
returns the game to a state equal by value to the state before the undo.
(After a win `undoThrow` still succeeds but `winner` is never cleared, so
the re-applied throw is rejected — see the counterexample.) -/
theorem C6_undo_redo (st : CGState) (hR : Reachable st) (hw : st.winner = none)
    (t : Thr) (hrm : (undoThrow st).2.removed = some t) :
    (addThrow (undoThrow st).1 t).1 = st := by
  have h := inv_reachable st hR
  unfold undoThrow at hrm ⊢
  by_cases hturn : st.currentTurn.throws.length > 0
  · rw [if_pos hturn] at hrm ⊢
    dsimp only at hrm ⊢
    obtain ⟨ts, t0, hdec⟩ : ∃ ts t0, st.currentTurn.throws = ts ++ [t0] := by
      rcases st.currentTurn.throws.eq_nil_or_concat with hnil | ⟨ts, t0, hcc⟩
      · rw [hnil] at hturn
        simp at hturn
      · exact ⟨ts, t0, by rw [hcc, List.concat_eq_append]⟩
    have ht0 : t = t0 := by
      rw [hdec, List.getLast?_concat] at hrm
      exact (Option.some.inj hrm).symm
    subst ht0
    have hprog := h.prog hw
    rw [hdec, progressive_append] at hprog
    obtain ⟨hprog_ts, hntrig⟩ := hprog
    obtain ⟨p, hp⟩ := get?_of_lt st.players _ h.idxLt
    have hdl : st.currentTurn.throws.dropLast = ts := by
      rw [hdec]
      exact List.dropLast_concat
    rw [hdl]
    unfold addThrow getActualCurrentScore getCurrentPlayer
    dsimp only
    rw [if_neg (show ¬((!st.gameStarted || st.winner.isSome) = true) from by
      rw [h.started, hw]; simp)]
    rw [hp]
    dsimp only
    rw [if_neg (fun hA => hntrig (Or.inl hA)),
        if_neg (fun hB => hntrig (Or.inr (Or.inl hB))),
        if_neg (show ¬((ts ++ [t]).length ≥ 3) from fun hC =>
          hntrig (Or.inr (Or.inr (by simpa using hC))))]
    dsimp only
    rw [← hdec]
  · rw [if_neg hturn] at hrm ⊢
    dsimp only at hrm ⊢
    have hpos : 0 < st.players.length := Nat.pos_of_ne_zero h.ne
    have hprevlt : (st.currentPlayerIndex + st.players.length - 1) % st.players.length
        < st.players.length := Nat.mod_lt _ hpos
    obtain ⟨pp, hpp⟩ := get?_of_lt st.players _ hprevlt
    rw [hpp] at hrm ⊢
    dsimp only at hrm ⊢
    by_cases hhist : pp.history.length = 0
    · rw [if_pos hhist] at hrm
      exact absurd hrm (by simp)
    · rw [if_neg hhist] at hrm ⊢
      dsimp only at hrm ⊢
      obtain ⟨h', r, hdec⟩ : ∃ h' r, pp.history = h' ++ [r] := by
        rcases pp.history.eq_nil_or_concat with hnil | ⟨h', r, hcc⟩
        · rw [hnil] at hhist
          simp at hhist
        · exact ⟨h', r, by rw [hcc, List.concat_eq_append]⟩
      have hmem : pp ∈ st.players := mem_of_get? _ _ _ hpp
      obtain ⟨hchain, hscore, hnum⟩ := h.chain pp hmem
      have hlast : pp.history.getLast? = some r := by
        rw [hdec]
        exact List.getLast?_concat _
      have hdrop : pp.history.dropLast = h' := by
        rw [hdec]
        exact List.dropLast_concat
      rw [hlast] at hrm ⊢
      simp only [Option.getD_some] at hrm ⊢
      rw [hdrop]
      have hstr := h.strong hw pp hmem
      rw [hdec, histStrong_append] at hstr
      obtain ⟨ts, t0, htr, hprog_ts, hcond⟩ := hstr.2
      have ht0 : t = t0 := by
        rw [htr, List.getLast?_concat] at hrm
        exact (Option.some.inj hrm).symm
      subst ht0
      rw [hdec, chainOkB_append] at hchain
      obtain ⟨hch', hsa⟩ := hchain
      have hround : r.round = h'.length + 1 :=
        numbered_last h' r (by rw [← hdec]; exact hnum)
      have hls : lastScore st.startingScore h' = chainFinal st.startingScore h' :=
        lastScore_eq_chainFinal _ _
      have hrdl : r.throws.dropLast = ts := by
        rw [htr]
        exact List.dropLast_concat
      rw [hls, hrdl]
      obtain ⟨pc, hpc⟩ := get?_of_lt st.players _ h.idxLt
      have htsS : st.currentTurn.scoreAtStart = pc.score := h.turnScore hw pc hpc
      have hthrows0 : st.currentTurn.throws = [] :=
        List.length_eq_zero.mp (by omega)
      have hppscore : pp.score = r.scoreAfter := by
        rw [hscore, hdec, chainFinal_append]
      have hturnEq : st.currentTurn = ⟨[], pc.score⟩ := by
        rw [← hthrows0, ← htsS]
      exact addThrow_cross_redo st _ pp h' r ts t pc h.started hw hprevlt hpp hdec htr
        hround hsa hppscore hcond (mod_cycle _ _ h.idxLt) hpc hturnEq

/-- The reachable one-throw state used to instantiate the amended C6. -/
def undoRedoOk : CGState :=
  (addThrow ((startGame cgW0).getD cgW0) ⟨"T20", 60, false⟩).1

/-- C6 amended witness: undoing and re-applying a T20 in a freshly started
game restores the state; the amended theorem is applied at that input. -/
theorem C6_witness :
    (addThrow (undoThrow undoRedoOk).1 ⟨"T20", 60, false⟩).1 = undoRedoOk :=
  C6_undo_redo undoRedoOk
    (Reachable.add _ _ (Reachable.start cgW0 _ (by with_unfolding_all rfl)))
    (by with_unfolding_all rfl) ⟨"T20", 60, false⟩ (by with_unfolding_all rfl)

end Darts
